import Mathlib

/-!
Verification of the Permuto JSON template-substitution engine.

The development shallowly embeds the two implementation generations present
in the repository:

* the monolithic engine of `src/permuto.cpp` together with
  `include/permuto/permuto.hpp` and `src/permuto_internal.hpp`
  (namespace `PermutoA` below), and
* the refactored engine of `src/api.cpp`, `src/template_processor.cpp`,
  `src/placeholder_parser.cpp`, `src/json_pointer.cpp` and
  `src/reverse_processor.cpp` (namespace `PermutoB` below).

C++ `std::string` is modelled as `List Char`, `nlohmann::json` as the
inductive `Json` (objects are association lists; `nlohmann::json` keeps its
object keys sorted, so iteration order of an object is its list order and
every concrete object below is written with sorted keys), thrown exceptions
as `Except Err`, and machine-word arithmetic as `Nat` with explicit bounds
where it matters (`std::stoull`).
-/

/-- C++ `std::string`, modelled as its character sequence. -/
abbrev Str := List Char

/-- The JSON value model (`nlohmann::json`): a tagged union.  Numbers are
modelled as integers; no claim under verification depends on floating-point
values.  Object entries are kept in `std::map` order (sorted by key). -/
inductive Json where
  | null : Json
  | bool : Bool → Json
  | num : Int → Json
  | str : Str → Json
  | arr : List Json → Json
  | obj : List (Str × Json) → Json

namespace Json

mutual

/-- Structural equality test for values: the semantics of `operator==` on
`nlohmann::json` in this model (an object is its sorted entry list, an
array its element list). -/
def eqv : Json → Json → Bool
  | obj ea, obj eb => eqvFields ea eb
  | arr xa, arr xb => eqvElems xa xb
  | str sa, str sb => sa == sb
  | num ia, num ib => ia == ib
  | bool ba, bool bb => ba == bb
  | null, null => true
  | _, _ => false

def eqvElems : List Json → List Json → Bool
  | [], [] => true
  | x :: xs, y :: ys => eqv x y && eqvElems xs ys
  | _, _ => false

def eqvFields : List (Str × Json) → List (Str × Json) → Bool
  | [], [] => true
  | (k, v) :: fs, (k2, v2) :: gs => k == k2 && eqv v v2 && eqvFields fs gs
  | _, _ => false

end

/-- Reflexivity of the structural equality test, by strong induction on
the size of the value. -/
theorem eqv_refl : ∀ (n : Nat) (a : Json), sizeOf a ≤ n → eqv a a = true := by
  intro n
  induction n using Nat.strong_induction_on with
  | _ n ih =>
    intro a hsz
    cases a with
    | null => rfl
    | bool x => simp [eqv]
    | num i => simp [eqv]
    | str s => simp [eqv]
    | arr xs =>
      rw [eqv]
      have step : ∀ ys : List Json, (∀ v ∈ ys, eqv v v = true) →
          eqvElems ys ys = true := by
        intro ys hall
        induction ys with
        | nil => rfl
        | cons y ys2 ih2 =>
          rw [eqvElems, Bool.and_eq_true]
          exact ⟨hall y (List.mem_cons_self _ _),
            ih2 (fun v hv => hall v (List.mem_cons_of_mem _ hv))⟩
      refine step xs (fun v hv => ?_)
      have h1 := List.sizeOf_lt_of_mem hv
      have h2 : sizeOf (Json.arr xs) = 1 + sizeOf xs := by simp
      exact ih (sizeOf v) (by omega) v (le_refl _)
    | obj fs =>
      rw [eqv]
      have step : ∀ gs : List (Str × Json), (∀ k v, (k, v) ∈ gs → eqv v v = true) →
          eqvFields gs gs = true := by
        intro gs hall
        induction gs with
        | nil => rfl
        | cons f gs2 ih2 =>
          obtain ⟨k, v⟩ := f
          rw [eqvFields, Bool.and_eq_true, Bool.and_eq_true]
          refine ⟨⟨by simp, hall k v (List.mem_cons_self _ _)⟩,
            ih2 (fun k2 v2 hv => hall k2 v2 (List.mem_cons_of_mem _ hv))⟩
      refine step fs (fun k v hv => ?_)
      have h1 := List.sizeOf_lt_of_mem hv
      have h2 : sizeOf (Json.obj fs) = 1 + sizeOf fs := by simp
      have h3 : sizeOf (k, v) = 1 + sizeOf k + sizeOf v := rfl
      exact ih (sizeOf v) (by omega) v (le_refl _)

/-- Soundness of the structural equality test: values it calls equal are
equal terms. -/
theorem eqv_sound : ∀ (n : Nat) (a b : Json), sizeOf a ≤ n →
    eqv a b = true → a = b := by
  intro n
  induction n using Nat.strong_induction_on with
  | _ n ih =>
    intro a b hsz he
    cases a with
    | null =>
      cases b
      case null => rfl
      all_goals exact absurd he (by simp [eqv])
    | bool x =>
      cases b
      case bool y => rw [eqv] at he; simp at he; rw [he]
      all_goals exact absurd he (by simp [eqv])
    | num i =>
      cases b
      case num j => rw [eqv] at he; simp at he; rw [he]
      all_goals exact absurd he (by simp [eqv])
    | str s =>
      cases b
      case str s2 => rw [eqv] at he; simp at he; rw [he]
      all_goals exact absurd he (by simp [eqv])
    | arr xs =>
      cases b
      case arr ys =>
        rw [eqv] at he
        have step : ∀ xs2 ys2 : List Json,
            (∀ v ∈ xs2, ∀ w, eqv v w = true → v = w) →
            eqvElems xs2 ys2 = true → xs2 = ys2 := by
          intro xs2
          induction xs2 with
          | nil =>
            intro ys2 _ h2
            cases ys2 with
            | nil => rfl
            | cons y ys3 => exact absurd h2 (by simp [eqvElems])
          | cons x xs3 ih2 =>
            intro ys2 hall h2
            cases ys2 with
            | nil => exact absurd h2 (by simp [eqvElems])
            | cons y ys3 =>
              rw [eqvElems, Bool.and_eq_true] at h2
              rw [hall x (List.mem_cons_self _ _) y h2.1,
                ih2 ys3 (fun v hv w hw =>
                  hall v (List.mem_cons_of_mem _ hv) w hw) h2.2]
        rw [step xs ys (fun v hv w hw => ?_) he]
        have h1 := List.sizeOf_lt_of_mem hv
        have h2 : sizeOf (Json.arr xs) = 1 + sizeOf xs := by simp
        exact ih (sizeOf v) (by omega) v w (le_refl _) hw
      all_goals exact absurd he (by simp [eqv])
    | obj fs =>
      cases b
      case obj gs =>
        rw [eqv] at he
        have step : ∀ fs2 gs2 : List (Str × Json),
            (∀ k v, (k, v) ∈ fs2 → ∀ w, eqv v w = true → v = w) →
            eqvFields fs2 gs2 = true → fs2 = gs2 := by
          intro fs2
          induction fs2 with
          | nil =>
            intro gs2 _ h2
            cases gs2 with
            | nil => rfl
            | cons g gs3 => exact absurd h2 (by simp [eqvFields])
          | cons f fs3 ih2 =>
            obtain ⟨k, v⟩ := f
            intro gs2 hall h2
            cases gs2 with
            | nil => exact absurd h2 (by simp [eqvFields])
            | cons g gs3 =>
              obtain ⟨k2, v2⟩ := g
              rw [eqvFields, Bool.and_eq_true, Bool.and_eq_true] at h2
              have hk : k = k2 := by
                have := h2.1.1
                simpa using this
              rw [hk, hall k v (List.mem_cons_self _ _) v2 h2.1.2,
                ih2 gs3 (fun k3 v3 hv w hw =>
                  hall k3 v3 (List.mem_cons_of_mem _ hv) w hw) h2.2]
        rw [step fs gs (fun k v hv w hw => ?_) he]
        have h1 := List.sizeOf_lt_of_mem hv
        have h2 : sizeOf (Json.obj fs) = 1 + sizeOf fs := by simp
        have h3 : sizeOf (k, v) = 1 + sizeOf k + sizeOf v := rfl
        exact ih (sizeOf v) (by omega) v w (le_refl _) hw
      all_goals exact absurd he (by simp [eqv])

instance : DecidableEq Json := fun a b =>
  decidable_of_iff (eqv a b = true)
    ⟨eqv_sound (sizeOf a) a b (le_refl _),
     fun h => h ▸ eqv_refl (sizeOf a) a (le_refl _)⟩

/-- Models `nlohmann::json::is_object`. -/
def isObj : Json → Bool
  | obj _ => true
  | _ => false

/-- Models `nlohmann::json::empty()`: answers `true` for `null` and for empty containers,
`false` for every other value. -/
def emptyJ : Json → Bool
  | null => true
  | arr es => es.isEmpty
  | obj es => es.isEmpty
  | _ => false

/-- Key lookup in an object entry list (`std::map::find`). -/
def objFind : List (Str × Json) → Str → Option Json
  | [], _ => none
  | (k, v) :: rest, key => if k = key then some v else objFind rest key

end Json

/-- Lexicographic `std::string` order (`operator<` on `std::string`),
used to model `std::map` key placement. -/
def strLt : Str → Str → Bool
  | [], [] => false
  | [], _ :: _ => true
  | _ :: _, [] => false
  | a :: as, b :: bs => if a = b then strLt as bs else decide (a < b)

/-- Insertion as by `std::map::operator[]` followed by assignment: insert or replace a key,
keeping the entry list sorted by key. -/
def objSet : List (Str × Json) → Str → Json → List (Str × Json)
  | [], key, v => [(key, v)]
  | (k, w) :: rest, key, v =>
    if k = key then (k, v) :: rest
    else if strLt key k then (key, v) :: (k, w) :: rest
    else (k, w) :: objSet rest key v

/-- The exceptions the engine can throw, by kind.  Message strings are not
modelled; the payloads the claims mention (paths, depths) are. -/
inductive Err where
  | invalidArgument : Err
  | logicError : Err
  | missingKey : Str → Err
  | cycle : Str → Err
  | recursionDepth : Nat → Nat → Err
  | recursionLimit : Nat → Err
  | runtimeError : Err
deriving DecidableEq


instance {e a : Type} [DecidableEq e] [DecidableEq a] : DecidableEq (Except e a) := fun x y =>
  match x, y with
  | .ok x1, .ok y1 =>
    if h : x1 = y1 then .isTrue (by rw [h]) else .isFalse (by simp [h])
  | .error x1, .error y1 =>
    if h : x1 = y1 then .isTrue (by rw [h]) else .isFalse (by simp [h])
  | .ok _, .error _ => .isFalse (by simp)
  | .error _, .ok _ => .isFalse (by simp)

/-! ## Shared string primitives (`std::string` operations) -/

/-- Scan of `findStrGo` over the suffixes of the subject string. -/
def findStrGo (pat : Str) : Str → Nat → Option Nat
  | suf, i =>
    if pat.isPrefixOf suf then some i
    else
      match suf with
      | [] => none
      | _ :: rest => findStrGo pat rest (i + 1)

/-- Models `std::string::find(pat, start)`: index of the first occurrence of
`pat` at or after `start`, if any (an occurrence must fit inside the
string, which prefix matching on the suffix guarantees). -/
def findStr (s pat : Str) (start : Nat) : Option Nat :=
  if s.length < start then none else findStrGo pat (s.drop start) start

/-- Models `std::string::substr(pos, len)`. -/
def substrLen (s : Str) (pos len : Nat) : Str :=
  (s.drop pos).take len

/-- The character of a decimal digit. -/
def digitChar (d : Nat) : Char := Char.ofNat (48 + d)

/-- Digit loop of `natToStr`; the fuel dominates the digit count, so
starting it at `n` never runs out. -/
def natToStrGo : Nat → Nat → Str
  | 0, _ => []
  | _ + 1, 0 => []
  | fuel + 1, n => natToStrGo fuel (n / 10) ++ [digitChar (n % 10)]

/-- Models `std::to_string` on an unsigned value: decimal digits, most
significant first, no padding. -/
def natToStr (n : Nat) : Str :=
  if n = 0 then ['0'] else natToStrGo n n

/-- Models `nlohmann::json::dump()` of an integer (used by `stringify_json`). -/
def intToStr (i : Int) : Str :=
  if i < 0 then '-' :: natToStr i.natAbs else natToStr i.toNat

/-! ## Generation A: the monolithic engine of `src/permuto.cpp` -/

namespace PermutoA

/-- Mirrors `include/permuto/permuto.hpp`, `enum class MissingKeyBehavior`. -/
inductive MissingKeyBehavior where
  | Ignore : MissingKeyBehavior
  | Error : MissingKeyBehavior
deriving DecidableEq

/-- Mirrors `include/permuto/permuto.hpp`, `struct Options`. -/
structure Options where
  variableStartMarker : Str := ['$', '{']
  variableEndMarker : Str := ['}']
  onMissingKey : MissingKeyBehavior := .Ignore
  enableStringInterpolation : Bool := false
  maxRecursionDepth : Nat := 64
deriving DecidableEq

/-- Holds when `Options::validate` succeeds: both markers non-empty and distinct. -/
def Options.validOk (o : Options) : Bool :=
  decide (o.variableStartMarker ≠ []) && decide (o.variableEndMarker ≠ []) &&
    decide (o.variableStartMarker ≠ o.variableEndMarker)

/-- Models `JsonPointerUtils::escape_segment`. -/
def escape_segment : Str → Str
  | [] => []
  | '~' :: rest => '~' :: '0' :: escape_segment rest
  | '/' :: rest => '~' :: '1' :: escape_segment rest
  | c :: rest => c :: escape_segment rest

/-- Models `JsonPointerUtils::unescape_segment` (keeps a `~` whose follower is not
`0` or `1`, and a trailing `~`). -/
def unescape_segment : Str → Str
  | [] => []
  | '~' :: '0' :: rest => '~' :: unescape_segment rest
  | '~' :: '1' :: rest => '/' :: unescape_segment rest
  | c :: rest => c :: unescape_segment rest

/-- Loop body of `JsonPointerUtils::parse_segments`: walks the characters
after the leading `/`, throwing `std::runtime_error` on an invalid escape.
`endsSlash` records whether the original pointer ended with `/` (the
`pointer.back() == '/'` test of the source). -/
def parse_segments_go (endsSlash : Bool) : Str → Str → List Str → Except Err (List Str)
  | [], cur, acc =>
    .ok (acc ++ (if cur ≠ [] ∨ endsSlash then [cur] else []))
  | ['~'], cur, acc =>
    -- the loop leaves a trailing escape pending; the epilogue then runs
    .ok (acc ++ (if cur ≠ [] ∨ endsSlash then [cur] else []))
  | '~' :: c :: rest, cur, acc =>
    if c = '0' then parse_segments_go endsSlash rest (cur ++ ['~']) acc
    else if c = '1' then parse_segments_go endsSlash rest (cur ++ ['/']) acc
    else .error .runtimeError
  | '/' :: rest, cur, acc => parse_segments_go endsSlash rest [] (acc ++ [cur])
  | c :: rest, cur, acc => parse_segments_go endsSlash rest (cur ++ [c]) acc

/-- Models `JsonPointerUtils::parse_segments`. -/
def parse_segments (pointer : Str) : Except Err (List Str) :=
  parse_segments_go (pointer.getLast? = some '/') (pointer.drop 1) [] []

/-- Syntax validity of the escape sequences of a pointer body: every `~`
must be followed by `0` or `1` (`nlohmann::json::json_pointer` parsing). -/
def validEscapes : Str → Bool
  | [] => true
  | ['~'] => false
  | '~' :: c :: rest => (c = '0' || c = '1') && validEscapes rest
  | _ :: rest => validEscapes rest

/-- Models `JsonPointerUtils::is_valid_pointer`: empty, or starts with `/` and
parses as a `nlohmann` JSON Pointer. -/
def is_valid_pointer (p : Str) : Bool :=
  p = [] || (p.head? = some '/' && validEscapes (p.drop 1))

/-- Models `JsonPointerUtils::create_pointer`. -/
def create_pointer (segs : List Str) : Str :=
  if segs = [] then [] else '/' :: List.intercalate ['/'] (segs.map escape_segment)

/-- The dot-splitting loop of `JsonPointerUtils::dot_to_pointer`
(only non-empty chunks are collected). -/
def dotSplit : Str → Str → List Str
  | [], cur => if cur = [] then [] else [cur]
  | '.' :: rest, cur => (if cur = [] then [] else [cur]) ++ dotSplit rest []
  | c :: rest, cur => dotSplit rest (cur ++ [c])

/-- Models `JsonPointerUtils::dot_to_pointer`. -/
def dot_to_pointer (p : Str) : Str :=
  if p = [] then [] else create_pointer (dotSplit p [])

/-- Mirrors `struct PlaceholderInfo` (the `ContextPath` member is represented by
its pointer string; its validity flag is recomputed on demand). -/
structure PlaceholderInfo where
  path : Str := []
  full_placeholder : Str := []
  start_pos : Nat := 0
  end_pos : Nat := 0
  is_valid : Bool := false
deriving DecidableEq

/-- Models `PlaceholderParser::is_exact_match_placeholder`. -/
def is_exact_match_placeholder (startM endM s : Str) : Bool :=
  let L := s.length
  let minL := startM.length + endM.length + 1
  let starts := decide (minL ≤ L) && startM.isPrefixOf s
  let ends := decide (minL ≤ L) &&
    decide (findStr s endM (L - endM.length) = some (L - endM.length))
  if starts && ends then
    match findStr s startM startM.length with
    | none => true
    | some j => decide (L - endM.length ≤ j)
  else false

/-- Models `PlaceholderParser::extract_placeholder_info`. -/
def extract_placeholder_info (startM endM s : Str) : PlaceholderInfo :=
  if is_exact_match_placeholder startM endM s then
    let L := s.length
    let path_str := substrLen s startM.length (L - startM.length - endM.length)
    if path_str = [] then
      { path := [], full_placeholder := s, start_pos := 0, end_pos := L,
        is_valid := false }
    else
      let pointer :=
        if path_str.head? = some '/' then path_str else dot_to_pointer path_str
      { path := pointer, full_placeholder := s, start_pos := 0, end_pos := L,
        is_valid := is_valid_pointer pointer }
  else {}

/-- Loop body of `PlaceholderParser::find_all_placeholders`.  The fuel only
bounds the ever-advancing scan position; with the validated (non-empty)
markers every iteration advances `pos` by at least two characters, so
`s.length + 2` units never run out. -/
def find_all_go (startM endM s : Str) : Nat → Nat → List PlaceholderInfo
  | _, 0 => []
  | pos, fuel + 1 =>
    if pos < s.length then
      match findStr s startM pos with
      | none => []
      | some sp =>
        match findStr s endM (sp + startM.length) with
        | none => []
        | some ep =>
          let path_str := substrLen s (sp + startM.length) (ep - (sp + startM.length))
          let full := substrLen s sp (ep + endM.length - sp)
          let pointer :=
            if path_str.head? = some '/' then path_str else dot_to_pointer path_str
          let valid := decide (path_str ≠ []) && decide (pointer ≠ [])
          { path := pointer, full_placeholder := full, start_pos := sp,
            end_pos := ep + endM.length, is_valid := valid } ::
            find_all_go startM endM s (ep + endM.length) fuel
    else []

/-- Models `PlaceholderParser::find_all_placeholders`. -/
def find_all_placeholders (startM endM s : Str) : List PlaceholderInfo :=
  find_all_go startM endM s 0 (s.length + 2)

/-! Strict JSON-Pointer lookup, the semantics of
`context.at(nlohmann::json::json_pointer(path))`. -/

/-- Split a pointer body on `/`, keeping empty fields (RFC 6901 reference
tokens). -/
def splitSlash : Str → List Str
  | [] => [[]]
  | c :: rest =>
    match splitSlash rest with
    | [] => [[]]
    | seg :: segs => if c = '/' then [] :: seg :: segs else (c :: seg) :: segs

/-- Models `nlohmann::json::json_pointer` construction: `none` models the
`parse_error` thrown on a malformed pointer. -/
def parsePointerStrict (p : Str) : Option (List Str) :=
  if p = [] then some []
  else if p.head? ≠ some '/' then none
  else if validEscapes (p.drop 1) then
    some ((splitSlash (p.drop 1)).map unescape_segment)
  else none

/-- Decimal value of an all-digit token. -/
def digitsVal : Str → Nat → Option Nat
  | [], acc => some acc
  | c :: rest, acc =>
    if c.isDigit then digitsVal rest (acc * 10 + (c.toNat - 48)) else none

/-- Models `nlohmann` array-index token rules: non-empty, all digits, no leading
zero (except the token `0` itself); `-` and anything else fails. -/
def strictIndex (tok : Str) : Option Nat :=
  if tok = [] then none
  else if tok = ['0'] then some 0
  else if tok.head? = some '0' then none
  else digitsVal tok 0

/-- Token-by-token traversal of `json::at(json_pointer)`; `none` models the
`out_of_range` exceptions. -/
def resolveTokensStrict : List Str → Json → Option Json
  | [], v => some v
  | tok :: rest, .obj es =>
    match Json.objFind es tok with
    | some v => resolveTokensStrict rest v
    | none => none
  | tok :: rest, .arr es =>
    match strictIndex tok with
    | some i =>
      match es[i]? with
      | some v => resolveTokensStrict rest v
      | none => none
    | none => none
  | _, _ => none

/-- Models `result.at(nlohmann::json::json_pointer(p))`, with `none` for every
thrown exception. -/
def resolveStrict (root : Json) (p : Str) : Option Json :=
  (parsePointerStrict p).bind fun toks => resolveTokensStrict toks root

/-- Models `detail::resolve_path`: `ok none` is the silent not-found of the
Ignore policy; under the Error policy every failure throws
`PermutoMissingKeyException` carrying the path. -/
def resolve_path (ctx : Json) (path : Str) (o : Options) : Except Err (Option Json) :=
  if path = [] then .ok (some ctx)
  else if path.head? ≠ some '/' then
    if o.onMissingKey = .Error then .error (.missingKey path) else .ok none
  else
    match resolveStrict ctx path with
    | some v => .ok (some v)
    | none =>
      if o.onMissingKey = .Error then .error (.missingKey path) else .ok none

end PermutoA

namespace PermutoA

/- The compact dump used by `detail::stringify_json` for structured values:
`nlohmann::json::dump(-1, ..)`. -/
mutual

def dumpJson : Json → Str
  | .null => "null".data
  | .bool b => if b then "true".data else "false".data
  | .num i => intToStr i
  | .str s => '"' :: dumpEscape s ++ ['"']
  | .arr es => '[' :: dumpElems es ++ [']']
  | .obj es => '{' :: dumpFields es ++ ['}']

def dumpElems : List Json → Str
  | [] => []
  | [v] => dumpJson v
  | v :: rest => dumpJson v ++ ',' :: dumpElems rest

def dumpFields : List (Str × Json) → Str
  | [] => []
  | [(k, v)] => '"' :: dumpEscape k ++ '"' :: ':' :: dumpJson v
  | (k, v) :: rest =>
    '"' :: dumpEscape k ++ '"' :: ':' :: dumpJson v ++ ',' :: dumpFields rest

def dumpEscape : Str → Str
  | [] => []
  | c :: rest =>
    (if c = '"' then ['\\', '"']
     else if c = '\\' then ['\\', '\\']
     else if c = '\x08' then ['\\', 'b']
     else if c = '\x0c' then ['\\', 'f']
     else if c = '\n' then ['\\', 'n']
     else if c = '\x0d' then ['\\', 'r']
     else if c = '\t' then ['\\', 't']
     else if c.toNat < 32 then
       '\\' :: 'u' :: '0' :: '0' :: digitChar (c.toNat / 16) :: [digitChar (c.toNat % 16)]
     else [c]) ++ dumpEscape rest

end

/-- Models `detail::stringify_json`. -/
def stringify_json : Json → Str
  | .str s => s
  | .null => "null".data
  | .bool b => if b then "true".data else "false".data
  | .num i => intToStr i
  | v => dumpJson v

/-- The interpolation-mode wrap applied by
`detail::process_exact_match_placeholder` to the value produced by
`detail::resolve_and_process_placeholder`. -/
def exactWrap (o : Options) (v : Json) : Json :=
  if o.enableStringInterpolation then .str (stringify_json v) else v

mutual

/-- Models `detail::process_string`, with `process_exact_match_placeholder` and
`resolve_and_process_placeholder` inlined (the `ActivePathGuard` becomes
the membership test plus the extended `active` list passed to the nested
call; its scoped release is the functional passing itself). -/
def process_string (o : Options) (ctx : Json) (s : Str) (active : List Str)
    (d : Nat) : Except Err Json :=
  if h : d ≥ o.maxRecursionDepth then
    .error (.recursionDepth d o.maxRecursionDepth)
  else
    let ph := extract_placeholder_info o.variableStartMarker o.variableEndMarker s
    if ph.is_valid then
      -- ActivePathGuard: throws on re-entry, never pushes an empty path
      if ph.path ≠ [] ∧ ph.path ∈ active then .error (.cycle ph.path)
      else
        let active2 := if ph.path = [] then active else ph.path :: active
        match resolve_path ctx ph.path o with
        | .error e => .error e
        | .ok none => .ok (exactWrap o (.str ph.full_placeholder))
        | .ok (some v) =>
          match v with
          | .str s2 =>
            match process_string o ctx s2 active2 (d + 1) with
            | .error e => .error e
            | .ok r => .ok (exactWrap o r)
          | v => .ok (exactWrap o v)
    else if o.enableStringInterpolation = false then .ok (.str s)
    else
      -- detail::process_interpolated_string (its own entry depth check is
      -- subsumed by the one above, both read the same depth)
      let phs := find_all_placeholders o.variableStartMarker o.variableEndMarker s
      if phs = [] then .ok (.str s)
      else
        match interp_parts o ctx s phs 0 active d with
        | .error e => .error e
        | .ok out => .ok (.str out)
termination_by (o.maxRecursionDepth - d, 2, 0)

/-- The placeholder loop of `detail::process_interpolated_string`.  Each
valid placeholder is resolved by `resolve_and_process_placeholder` at depth
`d + 1` (inlined here); a resolved string value is re-processed by
`process_string` at depth `d + 2`, written here behind the very depth
check that `process_string` itself would perform first. -/
def interp_parts (o : Options) (ctx : Json) (s : Str)
    (phs : List PlaceholderInfo) (cur : Nat) (active : List Str) (d : Nat) :
    Except Err Str :=
  match phs with
  | [] => .ok (if cur < s.length then substrLen s cur (s.length - cur) else [])
  | ph :: rest =>
    let lit := substrLen s cur (ph.start_pos - cur)
    if ph.is_valid then
      if ph.path ≠ [] ∧ ph.path ∈ active then .error (.cycle ph.path)
      else
        let active2 := if ph.path = [] then active else ph.path :: active
        match resolve_path ctx ph.path o with
        | .error e => .error e
        | .ok none =>
          match interp_parts o ctx s rest ph.end_pos active d with
          | .error e => .error e
          | .ok tail => .ok (lit ++ ph.full_placeholder ++ tail)
        | .ok (some v) =>
          match v with
          | .str s2 =>
            if h2 : d + 2 > o.maxRecursionDepth then
              .error (.recursionDepth (d + 2) o.maxRecursionDepth)
            else
              match process_string o ctx s2 active2 (d + 2) with
              | .error e => .error e
              | .ok r =>
                match interp_parts o ctx s rest ph.end_pos active d with
                | .error e => .error e
                | .ok tail => .ok (lit ++ stringify_json r ++ tail)
          | v =>
            match interp_parts o ctx s rest ph.end_pos active d with
            | .error e => .error e
            | .ok tail => .ok (lit ++ stringify_json v ++ tail)
    else
      match interp_parts o ctx s rest ph.end_pos active d with
      | .error e => .error e
      | .ok tail => .ok (lit ++ ph.full_placeholder ++ tail)
termination_by (o.maxRecursionDepth - d, 1, sizeOf phs)


end

mutual

/-- Models `detail::process_node`. -/
def process_node (o : Options) (ctx : Json) (node : Json) (active : List Str)
    (d : Nat) : Except Err Json :=
  if h : d ≥ o.maxRecursionDepth then
    .error (.recursionDepth d o.maxRecursionDepth)
  else
    match node with
    | .obj es =>
      match process_entries o ctx es active (d + 1) with
      | .error e => .error e
      | .ok es2 => .ok (.obj es2)
    | .arr es =>
      match process_elems o ctx es active (d + 1) with
      | .error e => .error e
      | .ok es2 => .ok (.arr es2)
    | .str s => process_string o ctx s active d
    | v => .ok v

/-- The object loop of `detail::process_node` (keys are never scanned; each
value is processed at depth `d`, which the caller has already advanced). -/
def process_entries (o : Options) (ctx : Json) (es : List (Str × Json))
    (active : List Str) (d : Nat) : Except Err (List (Str × Json)) :=
  match es with
  | [] => .ok []
  | (k, v) :: rest =>
    match process_node o ctx v active d with
    | .error e => .error e
    | .ok v2 =>
      match process_entries o ctx rest active d with
      | .error e => .error e
      | .ok rest2 => .ok ((k, v2) :: rest2)

/-- The array loop of `detail::process_node`. -/
def process_elems (o : Options) (ctx : Json) (es : List Json)
    (active : List Str) (d : Nat) : Except Err (List Json) :=
  match es with
  | [] => .ok []
  | v :: rest =>
    match process_node o ctx v active d with
    | .error e => .error e
    | .ok v2 =>
      match process_elems o ctx rest active d with
      | .error e => .error e
      | .ok rest2 => .ok (v2 :: rest2)

end

end PermutoA

namespace PermutoA

/-- Models `permuto::apply`: validate the options, then process the template
from the root with a fresh active-path set and depth `0`. -/
def apply (template ctx : Json) (o : Options) : Except Err Json :=
  if o.validOk then process_node o ctx template [] 0
  else .error .invalidArgument

/-- The per-level walk of `detail::insert_pointer_at_context_path` once the
context path has been split into segments.  An existing leaf is never
overwritten: a different leaf at the final segment, or any non-object in an
intermediate position, throws `std::runtime_error`. -/
def insert_at : Json → List Str → Str → Except Err Json
  | T, [], _ => .ok T
  | .obj es, [seg], ptr =>
    match Json.objFind es seg with
    | some v => if v = .str ptr then .ok (.obj es) else .error .runtimeError
    | none => .ok (.obj (objSet es seg (.str ptr)))
  | .obj es, seg :: rest, ptr =>
    match Json.objFind es seg with
    | some (.obj es2) =>
      match insert_at (.obj es2) rest ptr with
      | .error e => .error e
      | .ok sub => .ok (.obj (objSet es seg sub))
    | some _ => .error .runtimeError
    | none =>
      match insert_at (.obj []) rest ptr with
      | .error e => .error e
      | .ok sub => .ok (.obj (objSet es seg sub))
  | _, _ :: _, _ => .error .runtimeError

/-- Models `detail::insert_pointer_at_context_path`. -/
def insert_pointer_at_context_path (T : Json) (context_path ptr : Str) :
    Except Err Json :=
  if context_path = [] ∨ context_path.head? ≠ some '/' then .error .runtimeError
  else
    match parse_segments context_path with
    | .error e => .error e
    | .ok segs => insert_at T segs ptr

mutual

/-- Models `detail::build_reverse_template_recursive` (with
`process_template_object`, `process_template_array` and
`process_template_string` inlined as the loops below). -/
def build_reverse_rec (o : Options) (node : Json) (curPtr : Str) (T : Json) :
    Except Err Json :=
  match node with
  | .obj es => build_reverse_entries o es curPtr T
  | .arr es => build_reverse_elems o es curPtr 0 T
  | .str s =>
    let ph := extract_placeholder_info o.variableStartMarker o.variableEndMarker s
    if ph.is_valid then insert_pointer_at_context_path T ph.path curPtr
    else .ok T
  | _ => .ok T

/-- The object loop of `detail::process_template_object`: each key is
unescaped and re-escaped before being appended to the result pointer. -/
def build_reverse_entries (o : Options) (es : List (Str × Json)) (curPtr : Str)
    (T : Json) : Except Err Json :=
  match es with
  | [] => .ok T
  | (k, v) :: rest =>
    match build_reverse_rec o v (curPtr ++ '/' :: escape_segment (unescape_segment k)) T with
    | .error e => .error e
    | .ok T2 => build_reverse_entries o rest curPtr T2

/-- The array loop of `detail::process_template_array`. -/
def build_reverse_elems (o : Options) (es : List Json) (curPtr : Str) (i : Nat)
    (T : Json) : Except Err Json :=
  match es with
  | [] => .ok T
  | v :: rest =>
    match build_reverse_rec o v (curPtr ++ '/' :: natToStr i) T with
    | .error e => .error e
    | .ok T2 => build_reverse_elems o rest curPtr (i + 1) T2

end

/-- Models `permuto::create_reverse_template`. -/
def create_reverse_template (template : Json) (o : Options) : Except Err Json :=
  if o.validOk then
    if o.enableStringInterpolation then .error .logicError
    else build_reverse_rec o template [] (.obj [])
  else .error .invalidArgument

mutual

/-- Models `detail::reconstruct_context_recursive` (with
`process_reverse_object` and `process_reverse_pointer` inlined): builds the
reconstructed context for one reverse-template node. -/
def reconstruct (node result : Json) : Except Err Json :=
  match node with
  | .obj es =>
    match reconstruct_fields es result with
    | .error e => .error e
    | .ok es2 => .ok (.obj es2)
  | .str p =>
    match resolveStrict result p with
    | some v => .ok v
    | none => .error .runtimeError
  | _ => .error .runtimeError

/-- The key loop of `detail::process_reverse_object` (keys arrive in sorted
order, so inserting them into the fresh `std::map` keeps that order). -/
def reconstruct_fields (es : List (Str × Json)) (result : Json) :
    Except Err (List (Str × Json)) :=
  match es with
  | [] => .ok []
  | (k, v) :: rest =>
    match reconstruct v result with
    | .error e => .error e
    | .ok v2 =>
      match reconstruct_fields rest result with
      | .error e => .error e
      | .ok rest2 => .ok ((k, v2) :: rest2)

end

/-- Models `permuto::apply_reverse`: the root must be an object; any other
non-`empty()` root throws, while a non-object `empty()` root (null, an
empty array) yields an empty reconstructed context. -/
def apply_reverse (reverse_template result : Json) : Except Err Json :=
  match reverse_template with
  | .obj es => reconstruct (.obj es) result
  | T => if Json.emptyJ T then .ok (.obj []) else .error .runtimeError

end PermutoA

/-! ## Generation B: the refactored engine
(`src/api.cpp`, `src/template_processor.cpp`, `src/placeholder_parser.cpp`,
`src/json_pointer.cpp`). -/

namespace PermutoB

/-- Mirrors the refactored `MissingKeyBehavior`.  Modelled from the spec:
the header declaring this enum for the refactored sources is not in the
repository snapshot; the spec lists `on_missing_key` ∈
{Ignore, Error, Remove}. -/
inductive MissingKeyBehavior where
  | Ignore : MissingKeyBehavior
  | Error : MissingKeyBehavior
  | Remove : MissingKeyBehavior
deriving DecidableEq

/-- Modelled from the spec: the `Options` struct consumed by
`TemplateProcessor` (fields `start_marker`, `end_marker`,
`enable_interpolation`, `missing_key_behavior`, `max_recursion_depth`) is
declared in a header missing from the snapshot; defaults follow the spec. -/
structure Options where
  start_marker : Str := ['$', '{']
  end_marker : Str := ['}']
  enable_interpolation : Bool := false
  missing_key_behavior : MissingKeyBehavior := .Ignore
  max_recursion_depth : Nat := 64
deriving DecidableEq

/-- Modelled from the spec: `Options::validate` of the refactored engine —
empty or identical markers, a recursion depth below 1, and the Remove
policy combined with interpolation are all configuration errors (the last
is also pinned by the test `RemoveModeWithInterpolationError`). -/
def Options.validOkB (o : Options) : Bool :=
  decide (o.start_marker ≠ []) && decide (o.end_marker ≠ []) &&
    decide (o.start_marker ≠ o.end_marker) &&
    decide (1 ≤ o.max_recursion_depth) &&
    !(decide (o.missing_key_behavior = .Remove) && o.enable_interpolation)

/-- Models `PlaceholderParser::is_valid_path`: empty (root) or a string
starting with `/`. -/
def is_valid_path (p : Str) : Bool :=
  p = [] || p.head? = some '/'

/-- Models `PlaceholderParser::extract_exact_placeholder`. -/
def extract_exact_placeholder (startM endM text : Str) : Option Str :=
  if text.length < startM.length + endM.length then none
  else if substrLen text 0 startM.length ≠ startM then none
  else if text.drop (text.length - endM.length) ≠ endM then none
  else
    let path := substrLen text startM.length (text.length - startM.length - endM.length)
    if is_valid_path path then some path else none

/-- Mirrors `struct Placeholder` of `placeholder_parser.hpp`. -/
structure Placeholder where
  path : Str := []
  start_pos : Nat := 0
  end_pos : Nat := 0
  is_exact_match : Bool := false
deriving DecidableEq

/-- Loop of `PlaceholderParser::find_placeholders`.  As in generation A the
fuel merely bounds the strictly advancing scan position. -/
def find_placeholders_go (startM endM text : Str) : Nat → Nat → List Placeholder
  | _, 0 => []
  | pos, fuel + 1 =>
    if pos < text.length then
      match findStr text startM pos with
      | none => []
      | some start =>
        let path_start := start + startM.length
        match findStr text endM path_start with
        | none =>
          -- no matching end marker: skip this start marker
          find_placeholders_go startM endM text (start + 1) fuel
        | some stop =>
          let path := substrLen text path_start (stop - path_start)
          let rest := find_placeholders_go startM endM text (stop + endM.length) fuel
          if is_valid_path path then
            { path := path, start_pos := start, end_pos := stop + endM.length,
              is_exact_match :=
                decide (start = 0) && decide (stop + endM.length = text.length) } :: rest
          else rest
    else []

/-- Models `PlaceholderParser::find_placeholders`. -/
def find_placeholders (startM endM text : Str) : List Placeholder :=
  find_placeholders_go startM endM text 0 (text.length + 2)

/-! Models `json_pointer.cpp`: token parsing via `std::getline` and array
indexing via `std::stoull`. -/

/-- Characters accepted by `std::isspace` in the default locale. -/
def isCppSpace (c : Char) : Bool :=
  c = ' ' || c = '\t' || c = '\n' || c = '\x0b' || c = '\x0c' || c = '\x0d'

/-- Decimal value of a digit run. -/
def digitsNat (ds : Str) : Nat :=
  ds.foldl (fun acc c => acc * 10 + (c.toNat - 48)) 0

/-- Models `std::stoull` (base 10): skip leading whitespace, accept an
optional sign, require at least one digit, parse the longest digit prefix,
fail (`out_of_range`) above `2^64 - 1`, and reduce a negated value modulo
`2^64` as `strtoull` does. -/
def stoullStr (s : Str) : Option Nat :=
  let s1 := s.dropWhile isCppSpace
  let (neg, s2) : Bool × Str :=
    match s1 with
    | '+' :: rest => (false, rest)
    | '-' :: rest => (true, rest)
    | rest => (false, rest)
  let ds := s2.takeWhile Char.isDigit
  if ds = [] then none
  else
    let v := digitsNat ds
    if 2 ^ 64 - 1 < v then none
    else if neg then some ((2 ^ 64 - v % 2 ^ 64) % 2 ^ 64) else some v

/-- Models `JsonPointer::parse_path`: `std::getline` splitting on `/`,
which drops a single trailing empty field, followed by per-token
unescaping (`unescape_token`, same code as generation A). -/
def parse_pathB (p : Str) : Option (List Str) :=
  if p = [] then some []
  else if p.head? ≠ some '/' then none
  else
    let body := p.drop 1
    let fs := PermutoA.splitSlash body
    let fs2 := if body = [] then [] else
      if body.getLast? = some '/' then fs.dropLast else fs
    some (fs2.map PermutoA.unescape_segment)

/-- The token walk of `JsonPointer::resolve`: object keys by lookup, array
indices by `std::stoull` on the token with a bounds check, everything else
not found. -/
def resolveTokensB : List Str → Json → Option Json
  | [], v => some v
  | tok :: rest, .obj es =>
    match Json.objFind es tok with
    | some v => resolveTokensB rest v
    | none => none
  | tok :: rest, .arr es =>
    match stoullStr tok with
    | some i =>
      match es[i]? with
      | some v => resolveTokensB rest v
      | none => none
    | none => none
  | _, _ => none

/-- Models `JsonPointer(path).resolve(ctx)`, with `none` also covering the
`invalid_argument` thrown by `parse_path` (callers catch it). -/
def json_pointer_resolve (p : Str) (ctx : Json) : Option Json :=
  (parse_pathB p).bind fun toks => resolveTokensB toks ctx

/-- Models `TemplateProcessor::resolve_path`.  The cycle-detector push and
pop bracket a lookup that never re-enters the processor, so the detector
stack is empty at every entry and `would_create_cycle` can never answer
true; only the lookup remains. -/
def resolve_pathB (path : Str) (ctx : Json) : Option Json :=
  json_pointer_resolve path ctx

/-- Models `TemplateProcessor::json_to_string`. -/
def json_to_string : Json → Str
  | .str s => s
  | .num i => intToStr i
  | .bool b => if b then "true".data else "false".data
  | .null => "null".data
  | v => PermutoA.dumpJson v

/-- The fold of `PlaceholderParser::replace_placeholders` with the value
provider of `TemplateProcessor::process_string` inlined (resolve, stringify,
and under the Error policy throw on a missing key). -/
def replace_parts (o : Options) (ctx : Json) (text : Str) :
    List Placeholder → Nat → Except Err Str
  | [], last => .ok (text.drop last)
  | ph :: rest, last =>
    let lit := substrLen text last (ph.start_pos - last)
    match resolve_pathB ph.path ctx with
    | some v =>
      match replace_parts o ctx text rest ph.end_pos with
      | .error e => .error e
      | .ok tail => .ok (lit ++ json_to_string v ++ tail)
    | none =>
      if o.missing_key_behavior = .Error then .error (.missingKey ph.path)
      else
        match replace_parts o ctx text rest ph.end_pos with
        | .error e => .error e
        | .ok tail => .ok (lit ++ o.start_marker ++ ph.path ++ o.end_marker ++ tail)

/-- Models `TemplateProcessor::process_string`: an exact-match placeholder
resolves type-preservingly (no re-processing of the resolved value in this
generation); otherwise interpolation — when enabled — stringifies each
occurrence. -/
def process_stringB (o : Options) (ctx : Json) (s : Str) : Except Err Json :=
  match extract_exact_placeholder o.start_marker o.end_marker s with
  | some path =>
    match resolve_pathB path ctx with
    | some v => .ok v
    | none =>
      if o.missing_key_behavior = .Error then .error (.missingKey path)
      else .ok (.str s)
  | none =>
    if o.enable_interpolation = false then .ok (.str s)
    else
      let phs := find_placeholders o.start_marker o.end_marker s
      if phs = [] then .ok (.str s)
      else
        match replace_parts o ctx s phs 0 with
        | .error e => .error e
        | .ok out => .ok (.str out)

mutual

/-- Models `TemplateProcessor::process_value` with `enter_recursion`:
the depth is checked against the limit, then the value is processed with
the incremented depth threaded to the children. -/
def process_value (o : Options) (ctx v : Json) (d : Nat) : Except Err Json :=
  if d ≥ o.max_recursion_depth then .error (.recursionLimit d)
  else
    match v with
    | .str s => process_stringB o ctx s
    | .obj es =>
      match process_objectB o ctx es (d + 1) with
      | .error e => .error e
      | .ok es2 => .ok (.obj es2)
    | .arr es =>
      match process_arrayB o ctx es (d + 1) with
      | .error e => .error e
      | .ok es2 => .ok (.arr es2)
    | v => .ok v

/-- Models `TemplateProcessor::process_object`: an entry whose value is an
exact-match placeholder that fails to resolve is skipped entirely under the
Remove policy. -/
def process_objectB (o : Options) (ctx : Json) (es : List (Str × Json)) (d : Nat) :
    Except Err (List (Str × Json)) :=
  match es with
  | [] => .ok []
  | (k, v) :: rest =>
    let removed : Bool :=
      match v with
      | .str s =>
        match extract_exact_placeholder o.start_marker o.end_marker s with
        | some path =>
          (resolve_pathB path ctx).isNone &&
            decide (o.missing_key_behavior = .Remove)
        | none => false
      | _ => false
    if removed then process_objectB o ctx rest d
    else
      match process_value o ctx v d with
      | .error e => .error e
      | .ok v2 =>
        match process_objectB o ctx rest d with
        | .error e => .error e
        | .ok rest2 => .ok ((k, v2) :: rest2)

/-- Models `TemplateProcessor::process_array`, with the same Remove-policy
skip for elements. -/
def process_arrayB (o : Options) (ctx : Json) (es : List Json) (d : Nat) :
    Except Err (List Json) :=
  match es with
  | [] => .ok []
  | v :: rest =>
    let removed : Bool :=
      match v with
      | .str s =>
        match extract_exact_placeholder o.start_marker o.end_marker s with
        | some path =>
          (resolve_pathB path ctx).isNone &&
            decide (o.missing_key_behavior = .Remove)
        | none => false
      | _ => false
    if removed then process_arrayB o ctx rest d
    else
      match process_value o ctx v d with
      | .error e => .error e
      | .ok v2 =>
        match process_arrayB o ctx rest d with
        | .error e => .error e
        | .ok rest2 => .ok (v2 :: rest2)

end

/-- Models `permuto::apply` of `api.cpp`: reject a root-level exact
placeholder under the Remove policy, validate the options (the
`TemplateProcessor` and `PlaceholderParser` constructors), then process
from depth 0 with a fresh context. -/
def applyB (template ctx : Json) (o : Options) : Except Err Json :=
  let rootRemove : Bool :=
    match template with
    | .str s =>
      decide (o.missing_key_behavior = .Remove) &&
        (extract_exact_placeholder o.start_marker o.end_marker s).isSome
    | _ => false
  if rootRemove then .error .invalidArgument
  else if o.validOkB then process_value o ctx template 0
  else .error .invalidArgument

end PermutoB

/-! ## Unfolding lemmas for the well-founded string processor -/

namespace PermutoA

/-- The body of `resolve_and_process_placeholder` applied to an extracted
placeholder, as one expression (guard, lookup, chain re-processing, and the
interpolation wrap of `process_exact_match_placeholder`). -/
def exact_step (o : Options) (ctx : Json) (info : PlaceholderInfo)
    (active : List Str) (d : Nat) : Except Err Json :=
  if info.path ≠ [] ∧ info.path ∈ active then .error (.cycle info.path)
  else
    match resolve_path ctx info.path o with
    | .error e => .error e
    | .ok none => .ok (exactWrap o (.str info.full_placeholder))
    | .ok (some v) =>
      match v with
      | .str s2 =>
        match process_string o ctx s2
            (if info.path = [] then active else info.path :: active) (d + 1) with
        | .error e => .error e
        | .ok r => .ok (exactWrap o r)
      | v => .ok (exactWrap o v)

theorem process_node_depth (o : Options) (ctx : Json) (node : Json)
    (active : List Str) (d : Nat) (h : o.maxRecursionDepth ≤ d) :
    process_node o ctx node active d =
      .error (.recursionDepth d o.maxRecursionDepth) := by
  cases node <;> simp [process_node, h]

theorem process_node_str (o : Options) (ctx : Json) (s : Str)
    (active : List Str) (d : Nat) (h : ¬ o.maxRecursionDepth ≤ d) :
    process_node o ctx (Json.str s) active d =
      process_string o ctx s active d := by
  simp [process_node, h]

theorem resolve_path_found (ctx : Json) (p : Str) (o : Options) (v : Json)
    (hp : ¬ p = []) (hh : p.head? = some '/')
    (hr : resolveStrict ctx p = some v) :
    resolve_path ctx p o = .ok (some v) := by
  simp [resolve_path, hp, hh, hr]

theorem exact_step_cycle (o : Options) (ctx : Json) (info : PlaceholderInfo)
    (active : List Str) (d : Nat) (hp : ¬ info.path = [])
    (hm : info.path ∈ active) :
    exact_step o ctx info active d = .error (.cycle info.path) := by
  simp [exact_step, hp, hm]

theorem exact_step_missing (o : Options) (ctx : Json) (info : PlaceholderInfo)
    (active : List Str) (d : Nat) (hm : info.path ∉ active)
    (hr : resolve_path ctx info.path o = .ok none) :
    exact_step o ctx info active d =
      .ok (exactWrap o (.str info.full_placeholder)) := by
  simp [exact_step, hm, hr]

theorem exact_step_found_str (o : Options) (ctx : Json)
    (info : PlaceholderInfo) (active : List Str) (d : Nat) (s2 : Str)
    (hp : ¬ info.path = []) (hm : info.path ∉ active)
    (hr : resolve_path ctx info.path o = .ok (some (Json.str s2))) :
    exact_step o ctx info active d =
      (match process_string o ctx s2 (info.path :: active) (d + 1) with
       | .error e => .error e
       | .ok r => .ok (exactWrap o r)) := by
  simp [exact_step, hp, hm, hr]

theorem exact_step_found_value (o : Options) (ctx : Json)
    (info : PlaceholderInfo) (active : List Str) (d : Nat) (v : Json)
    (hm : info.path ∉ active)
    (hr : resolve_path ctx info.path o = .ok (some v))
    (hs : ∀ s, v ≠ Json.str s) :
    exact_step o ctx info active d = .ok (exactWrap o v) := by
  cases v <;> simp_all [exact_step]

theorem process_string_depth (o : Options) (ctx : Json) (s : Str)
    (active : List Str) (d : Nat) (h : o.maxRecursionDepth ≤ d) :
    process_string o ctx s active d =
      .error (.recursionDepth d o.maxRecursionDepth) := by
  rw [process_string]
  simp [h]

theorem process_string_exact (o : Options) (ctx : Json) (s : Str)
    (active : List Str) (d : Nat) (h : ¬ o.maxRecursionDepth ≤ d)
    (info : PlaceholderInfo)
    (he : extract_placeholder_info o.variableStartMarker o.variableEndMarker s
      = info)
    (hv : info.is_valid = true) :
    process_string o ctx s active d = exact_step o ctx info active d := by
  rw [process_string]
  simp only [ge_iff_le, h, dite_false, dif_neg, he, hv, if_true, exact_step]

theorem process_string_literal (o : Options) (ctx : Json) (s : Str)
    (active : List Str) (d : Nat) (h : ¬ o.maxRecursionDepth ≤ d)
    (hv : (extract_placeholder_info o.variableStartMarker o.variableEndMarker
      s).is_valid = false)
    (hi : o.enableStringInterpolation = false) :
    process_string o ctx s active d = .ok (.str s) := by
  rw [process_string]
  simp [h, hv, hi]

theorem process_string_interp (o : Options) (ctx : Json) (s : Str)
    (active : List Str) (d : Nat) (h : ¬ o.maxRecursionDepth ≤ d)
    (hv : (extract_placeholder_info o.variableStartMarker o.variableEndMarker
      s).is_valid = false)
    (hi : o.enableStringInterpolation = true) :
    process_string o ctx s active d =
      (if find_all_placeholders o.variableStartMarker o.variableEndMarker s
          = [] then .ok (.str s)
       else
        match interp_parts o ctx s
            (find_all_placeholders o.variableStartMarker o.variableEndMarker s)
            0 active d with
        | .error e => .error e
        | .ok out => .ok (.str out)) := by
  rw [process_string]
  simp [h, hv, hi]

theorem interp_parts_nil (o : Options) (ctx : Json) (s : Str) (cur : Nat)
    (active : List Str) (d : Nat) :
    interp_parts o ctx s [] cur active d =
      .ok (if cur < s.length then substrLen s cur (s.length - cur) else []) := by
  rw [interp_parts]

theorem interp_parts_cons_invalid (o : Options) (ctx : Json) (s : Str)
    (ph : PlaceholderInfo) (rest : List PlaceholderInfo) (cur : Nat)
    (active : List Str) (d : Nat) (hv : ph.is_valid = false) :
    interp_parts o ctx s (ph :: rest) cur active d =
      (match interp_parts o ctx s rest ph.end_pos active d with
       | .error e => .error e
       | .ok tail =>
         .ok (substrLen s cur (ph.start_pos - cur) ++ ph.full_placeholder ++ tail)) := by
  rw [interp_parts]
  simp [hv]

theorem interp_parts_cons_valid (o : Options) (ctx : Json) (s : Str)
    (ph : PlaceholderInfo) (rest : List PlaceholderInfo) (cur : Nat)
    (active : List Str) (d : Nat) (hv : ph.is_valid = true) :
    interp_parts o ctx s (ph :: rest) cur active d =
      (if ph.path ≠ [] ∧ ph.path ∈ active then .error (.cycle ph.path)
       else
        match resolve_path ctx ph.path o with
        | .error e => .error e
        | .ok none =>
          match interp_parts o ctx s rest ph.end_pos active d with
          | .error e => .error e
          | .ok tail =>
            .ok (substrLen s cur (ph.start_pos - cur) ++ ph.full_placeholder ++ tail)
        | .ok (some v) =>
          match v with
          | .str s2 =>
            if o.maxRecursionDepth < d + 2 then
              .error (.recursionDepth (d + 2) o.maxRecursionDepth)
            else
              match process_string o ctx s2
                  (if ph.path = [] then active else ph.path :: active) (d + 2) with
              | .error e => .error e
              | .ok r =>
                match interp_parts o ctx s rest ph.end_pos active d with
                | .error e => .error e
                | .ok tail =>
                  .ok (substrLen s cur (ph.start_pos - cur) ++ stringify_json r ++ tail)
          | v =>
            match interp_parts o ctx s rest ph.end_pos active d with
            | .error e => .error e
            | .ok tail =>
              .ok (substrLen s cur (ph.start_pos - cur) ++ stringify_json v ++ tail)) := by
  rw [interp_parts]
  simp [hv]

end PermutoA

/-! ## Round-trip development (C2): spec-side definitions

The definitions in this section express what the round-trip law needs to
talk about: the expected forward result, the (context-path, result-pointer)
pairs an exact-match traversal collects, the conflict-free trie insertion,
and the restriction of a context to a set of referenced paths.  They are
derived from the generation-A source semantics above. -/

namespace PermutoA

/-- A resolved value is inert when re-processing it (with interpolation
disabled) returns it unchanged: any non-string, or a string that is not an
exact-match placeholder. -/
def rtInert (o : Options) (v : Json) : Bool :=
  match v with
  | .str s2 =>
    !(extract_placeholder_info o.variableStartMarker o.variableEndMarker
      s2).is_valid
  | _ => true

mutual

/-- The expected forward result: exact-match placeholder strings are
replaced by their resolved value (or kept when unresolved, the Ignore
policy), everything else is kept structurally. -/
def rtFwd (o : Options) (ctx : Json) : Json → Json
  | .obj es => .obj (rtFwdEntries o ctx es)
  | .arr es => .arr (rtFwdElems o ctx es)
  | .str s =>
    let info := extract_placeholder_info o.variableStartMarker
      o.variableEndMarker s
    if info.is_valid then
      match resolveStrict ctx info.path with
      | some v => v
      | none => .str s
    else .str s
  | v => v

def rtFwdEntries (o : Options) (ctx : Json) :
    List (Str × Json) → List (Str × Json)
  | [] => []
  | (k, v) :: rest => (k, rtFwd o ctx v) :: rtFwdEntries o ctx rest

def rtFwdElems (o : Options) (ctx : Json) : List Json → List Json
  | [] => []
  | v :: rest => rtFwd o ctx v :: rtFwdElems o ctx rest

end

mutual

/-- Checks the hypotheses of the round-trip law on every string of the
template: a valid exact-match placeholder must have a non-empty path
resolving to an inert value; other strings are unconstrained. -/
def rtStringsOK (o : Options) (ctx : Json) : Json → Bool
  | .obj es => rtStringsOKEntries o ctx es
  | .arr es => rtStringsOKElems o ctx es
  | .str s =>
    let info := extract_placeholder_info o.variableStartMarker
      o.variableEndMarker s
    if info.is_valid then
      decide (info.path ≠ []) &&
        (match resolveStrict ctx info.path with
         | some v => rtInert o v
         | none => false)
    else true
  | _ => true

def rtStringsOKEntries (o : Options) (ctx : Json) :
    List (Str × Json) → Bool
  | [] => true
  | (_, v) :: rest => rtStringsOK o ctx v && rtStringsOKEntries o ctx rest

def rtStringsOKElems (o : Options) (ctx : Json) : List Json → Bool
  | [] => true
  | v :: rest => rtStringsOK o ctx v && rtStringsOKElems o ctx rest

end

mutual

/-- Object keys must be unescape-stable (so the reverse builder's
unescape/escape normalization round-trips to the key itself) and distinct
within each object. -/
def rtKeysOK : Json → Bool
  | .obj es =>
    decide ((es.map Prod.fst).Nodup) && rtKeysOKEntries es
  | .arr es => rtKeysOKElems es
  | _ => true

def rtKeysOKEntries : List (Str × Json) → Bool
  | [] => true
  | (k, v) :: rest =>
    decide (unescape_segment k = k) && rtKeysOK v && rtKeysOKEntries rest

def rtKeysOKElems : List Json → Bool
  | [] => true
  | v :: rest => rtKeysOK v && rtKeysOKElems rest

end

mutual

/-- Depth budget a node needs: the processor checks the depth at each tree
level, and re-processes a resolved string one level deeper. -/
def depthNeed : Json → Nat
  | .obj es => 1 + depthNeedEntries es
  | .arr es => 1 + depthNeedElems es
  | .str _ => 2
  | _ => 1

def depthNeedEntries : List (Str × Json) → Nat
  | [] => 0
  | (_, v) :: rest => max (depthNeed v) (depthNeedEntries rest)

def depthNeedElems : List Json → Nat
  | [] => 0
  | v :: rest => max (depthNeed v) (depthNeedElems rest)

end

mutual

/-- The (context-path, result-pointer) pairs collected by the reverse
builder, in traversal order. -/
def rtRefs (o : Options) : Json → Str → List (Str × Str)
  | .obj es, cur => rtRefsEntries o es cur
  | .arr es, cur => rtRefsElems o es cur 0
  | .str s, cur =>
    let info := extract_placeholder_info o.variableStartMarker
      o.variableEndMarker s
    if info.is_valid then [(info.path, cur)] else []
  | _, _ => []

def rtRefsEntries (o : Options) : List (Str × Json) → Str → List (Str × Str)
  | [], _ => []
  | (k, v) :: rest, cur =>
    rtRefs o v (cur ++ '/' :: escape_segment (unescape_segment k)) ++
      rtRefsEntries o rest cur

def rtRefsElems (o : Options) : List Json → Str → Nat → List (Str × Str)
  | [], _, _ => []
  | v :: rest, cur, i =>
    rtRefs o v (cur ++ '/' :: natToStr i) ++ rtRefsElems o rest cur (i + 1)

end

/-- Segments of a context path, total (callers establish that parsing
succeeds). -/
def segsD (p : Str) : List Str :=
  match parse_segments p with
  | .ok s => s
  | .error _ => []

/-- The value a referenced path has in the context (total; callers
establish that resolution succeeds). -/
def rtVal (ctx : Json) (p : Str) : Json :=
  match resolveStrict ctx p with
  | some v => v
  | none => .null

/-- The total twin of a successful `insert_at`: place a leaf at the end of
a segment path, creating objects along the way. -/
def insertT : Json → List Str → Json → Json
  | T, [], _ => T
  | .obj es, [seg], leaf =>
    (match Json.objFind es seg with
     | some _ => Json.obj es
     | none => Json.obj (objSet es seg leaf))
  | .obj es, seg :: rest, leaf =>
    (match Json.objFind es seg with
     | some sub => Json.obj (objSet es seg (insertT sub rest leaf))
     | none => Json.obj (objSet es seg (insertT (.obj []) rest leaf)))
  | T, _ :: _, _ => T

/-- The reverse-builder insertions folded over a reference list. -/
def rtInsertFold : Json → List (Str × Str) → Except Err Json
  | T, [] => .ok T
  | T, (p, ptr) :: rest =>
    match insert_pointer_at_context_path T p ptr with
    | .error e => .error e
    | .ok T2 => rtInsertFold T2 rest

/-- The context restricted to the referenced paths: the same trie shape the
reverse template has, with each leaf holding the context value of its
path. -/
def rtRestrict (o : Options) (ctx : Json) (t : Json) : Json :=
  (rtRefs o t []).foldl
    (fun T pr => insertT T (segsD pr.1) (rtVal ctx pr.1)) (.obj [])

mutual

/-- Replace every string leaf of an object/string tree through `f`. -/
def mapLeaves (f : Str → Json) : Json → Json
  | .obj es => .obj (mapLeavesEntries f es)
  | .str p => f p
  | v => v

def mapLeavesEntries (f : Str → Json) :
    List (Str × Json) → List (Str × Json)
  | [] => []
  | (k, v) :: rest => (k, mapLeaves f v) :: mapLeavesEntries f rest

end

/-- Lookup of a reverse-template leaf pointer in the result (total). -/
def rtLook (R : Json) (p : Str) : Json :=
  match resolveStrict R p with
  | some v => v
  | none => .null

mutual

/-- A well-formed reverse template: objects all the way down to string
leaves. -/
def rtWF : Json → Bool
  | .str _ => true
  | .obj es => rtWFEntries es
  | _ => false

def rtWFEntries : List (Str × Json) → Bool
  | [] => true
  | (_, v) :: rest => rtWF v && rtWFEntries rest

end

mutual

/-- Every string leaf of the tree resolves in `R`. -/
def rtLeavesOK (R : Json) : Json → Bool
  | .str p => (resolveStrict R p).isSome
  | .obj es => rtLeavesOKEntries R es
  | _ => true

def rtLeavesOKEntries (R : Json) : List (Str × Json) → Bool
  | [] => true
  | (_, v) :: rest => rtLeavesOK R v && rtLeavesOKEntries R rest

end


/-! Pointer-string lemmas used by the round-trip development. -/

theorem unescape_cons (c : Char) (l : Str) (hc : c ≠ '~') :
    unescape_segment (c :: l) = c :: unescape_segment l := by
  simp [unescape_segment, hc]

theorem unescape_escape (x : Str) : unescape_segment (escape_segment x) = x := by
  induction x using escape_segment.induct with
  | case1 => rfl
  | case2 rest ih => rw [escape_segment, unescape_segment, ih]
  | case3 rest ih => rw [escape_segment, unescape_segment, ih]
  | case4 c rest h1 h2 ih =>
    have hc : c ≠ '~' := fun h => h1 h
    have hs : c ≠ '/' := fun h => h2 h
    rw [show escape_segment (c :: rest) = c :: escape_segment rest by
          simp [escape_segment, hc, hs],
        unescape_cons c _ hc, ih]

theorem escape_cons (c : Char) (l : Str) (hc : c ≠ '~') (hs : c ≠ '/') :
    escape_segment (c :: l) = c :: escape_segment l := by
  simp [escape_segment, hc, hs]

theorem escape_no_slash (x : Str) : '/' ∉ escape_segment x := by
  induction x using escape_segment.induct with
  | case1 => simp [escape_segment]
  | case2 rest ih =>
    rw [escape_segment]
    intro h
    rcases List.mem_cons.mp h with h | h
    · exact absurd h.symm (by decide)
    rcases List.mem_cons.mp h with h | h
    · exact absurd h.symm (by decide)
    · exact ih h
  | case3 rest ih =>
    rw [escape_segment]
    intro h
    rcases List.mem_cons.mp h with h | h
    · exact absurd h.symm (by decide)
    rcases List.mem_cons.mp h with h | h
    · exact absurd h.symm (by decide)
    · exact ih h
  | case4 c rest h1 h2 ih =>
    have hc : c ≠ '~' := fun h => h1 h
    have hs : c ≠ '/' := fun h => h2 h
    rw [escape_cons c _ hc hs]
    intro h
    rcases List.mem_cons.mp h with h | h
    · exact hs h.symm
    · exact ih h

theorem validEscapes_cons (c : Char) (l : Str) (hc : c ≠ '~') :
    validEscapes (c :: l) = validEscapes l := by
  cases l with
  | nil => simp [validEscapes, hc]
  | cons d rest => simp [validEscapes, hc]

theorem validEscapes_escape (x : Str) : validEscapes (escape_segment x) = true := by
  induction x using escape_segment.induct with
  | case1 => rfl
  | case2 rest ih => rw [escape_segment, validEscapes]; simpa using ih
  | case3 rest ih => rw [escape_segment, validEscapes]; simpa using ih
  | case4 c rest h1 h2 ih =>
    have hc : c ≠ '~' := fun h => h1 h
    have hs : c ≠ '/' := fun h => h2 h
    rw [escape_cons c _ hc hs, validEscapes_cons c _ hc]
    exact ih

theorem validEscapes_append (a b : Str) (ha : validEscapes a = true)
    (hb : validEscapes b = true) : validEscapes (a ++ b) = true := by
  induction a using validEscapes.induct with
  | case1 => simpa using hb
  | case2 => exact absurd ha (by simp [validEscapes])
  | case3 c rest ih =>
    rw [validEscapes] at ha
    simp only [Bool.and_eq_true] at ha
    show validEscapes ('~' :: c :: (rest ++ b)) = true
    rw [validEscapes]
    simp only [Bool.and_eq_true]; exact ⟨ha.1, ih ha.2⟩
  | case4 c rest h1 h2 ih =>
    have hc : c ≠ '~' := by
      intro h
      cases rest with
      | nil => exact h1 h rfl
      | cons d rs => exact h2 d rs h rfl
    rw [validEscapes_cons c rest hc] at ha
    show validEscapes (c :: (rest ++ b)) = true
    rw [validEscapes_cons c _ hc]
    exact ih ha

theorem splitSlash_ne_nil (l : Str) : splitSlash l ≠ [] := by
  induction l with
  | nil => simp [splitSlash]
  | cons c rest ih =>
    rw [splitSlash]
    cases hs : splitSlash rest with
    | nil => simp
    | cons seg segs => by_cases hc : c = '/' <;> simp [hc]

theorem splitSlash_no_slash (l : Str) (h : '/' ∉ l) : splitSlash l = [l] := by
  induction l with
  | nil => rfl
  | cons c rest ih =>
    rw [splitSlash, ih (fun hm => h (List.mem_cons_of_mem c hm))]
    have : c ≠ '/' := fun he => h (he ▸ List.mem_cons_self c rest)
    simp [this]

theorem splitSlash_append (a e : Str) (he : '/' ∉ e) :
    splitSlash (a ++ '/' :: e) = splitSlash a ++ [e] := by
  induction a with
  | nil =>
    show splitSlash ('/' :: e) = [[]] ++ [e]
    rw [splitSlash, splitSlash_no_slash e he]
    simp
  | cons c rest ih =>
    show splitSlash (c :: (rest ++ '/' :: e)) = splitSlash (c :: rest) ++ [e]
    rw [splitSlash, ih, splitSlash]
    cases hs : splitSlash rest with
    | nil => exact absurd hs (splitSlash_ne_nil rest)
    | cons seg segs => by_cases hc : c = '/' <;> simp [hc]

theorem unescape_no_tilde (l : Str) (h : '~' ∉ l) : unescape_segment l = l := by
  induction l with
  | nil => rfl
  | cons c rest ih =>
    have hc : c ≠ '~' := fun he => h (he ▸ List.mem_cons_self c rest)
    rw [unescape_cons c rest hc, ih (fun hm => h (List.mem_cons_of_mem c hm))]

theorem validEscapes_no_tilde (l : Str) (h : '~' ∉ l) : validEscapes l = true := by
  induction l with
  | nil => rfl
  | cons c rest ih =>
    have hc : c ≠ '~' := fun he => h (he ▸ List.mem_cons_self c rest)
    rw [validEscapes_cons c rest hc]
    exact ih (fun hm => h (List.mem_cons_of_mem c hm))

theorem parse_append_raw (p e : Str) (ts : List Str)
    (hv : validEscapes e = true) (hs : '/' ∉ e)
    (hp : parsePointerStrict p = some ts) :
    parsePointerStrict (p ++ '/' :: e) = some (ts ++ [unescape_segment e]) := by
  cases p with
  | nil =>
    have hts : ts = [] := by
      simpa [parsePointerStrict] using hp
    subst hts
    show parsePointerStrict ('/' :: e) = some [unescape_segment e]
    rw [parsePointerStrict]
    simp [splitSlash_no_slash e hs, hv]
  | cons c rest =>
    rw [parsePointerStrict] at hp
    simp only [List.cons_ne_nil, if_false] at hp
    by_cases hc : c = '/'
    · subst hc
      simp only [List.head?_cons, ne_eq, not_true_eq_false, if_false,
        List.drop_one, List.tail_cons, if_true, reduceCtorEq, ite_false,
        not_not] at hp
      by_cases hve : validEscapes rest = true
      · rw [if_pos hve] at hp
        have hts : ts = (splitSlash rest).map unescape_segment :=
          (Option.some_inj.mp hp).symm
        rw [parsePointerStrict]
        have h1 : ('/' :: rest ++ '/' :: e) ≠ [] := by simp
        rw [if_neg h1]
        have h2 : ('/' :: rest ++ '/' :: e).head? = some '/' := by simp
        simp only [h2, ne_eq, not_true_eq_false, if_false]
        have h3 : ('/' :: rest ++ '/' :: e).drop 1 = rest ++ '/' :: e := by simp
        rw [h3]
        have h4 : validEscapes (rest ++ '/' :: e) = true := by
          have : validEscapes ('/' :: e) = true := by
            rw [validEscapes_cons '/' e (by decide)]; exact hv
          exact validEscapes_append rest ('/' :: e) hve this
        rw [if_pos h4, splitSlash_append rest e hs]
        simp [hts]
      · rw [if_neg hve] at hp; exact absurd hp (by simp)
    · have hcond : ((c :: rest).head? ≠ some '/') := by simp [hc]
      rw [if_pos hcond] at hp
      exact absurd hp (by simp)

theorem digitChar_toNat (d : Nat) (h : d < 10) : (digitChar d).toNat = 48 + d := by
  interval_cases d <;> rfl

theorem digitChar_isDigit (d : Nat) (h : d < 10) : (digitChar d).isDigit = true := by
  interval_cases d <;> rfl

theorem digitChar_eq_zero (d : Nat) (h : d < 10) : digitChar d = '0' ↔ d = 0 := by
  constructor
  · intro he
    have := congrArg Char.toNat he
    rw [digitChar_toNat d h] at this
    simpa using this
  · intro he; subst he; rfl

theorem digitChar_ne_slash (d : Nat) (h : d < 10) : digitChar d ≠ '/' := by
  interval_cases d <;> decide

theorem digitChar_ne_tilde (d : Nat) (h : d < 10) : digitChar d ≠ '~' := by
  interval_cases d <;> decide

theorem natToStrGo_succ (f m : Nat) :
    natToStrGo (f + 1) (m + 1) =
      natToStrGo f ((m + 1) / 10) ++ [digitChar ((m + 1) % 10)] := by
  rw [natToStrGo]
  simp

theorem natToStrGo_chars (fuel n : Nat) :
    ∀ c ∈ natToStrGo fuel n, ∃ d, d < 10 ∧ c = digitChar d := by
  induction fuel generalizing n with
  | zero => intro c hc; exact absurd hc (by simp [natToStrGo])
  | succ f ih =>
    intro c hc
    cases n with
    | zero => exact absurd hc (by simp [natToStrGo])
    | succ m =>
      rw [natToStrGo_succ] at hc
      rcases List.mem_append.mp hc with h | h
      · exact ih _ c h
      · rcases List.mem_singleton.mp h with rfl
        exact ⟨(m + 1) % 10, Nat.mod_lt _ (by norm_num), rfl⟩

theorem digitsVal_append (xs ys : Str) (acc : Nat) :
    digitsVal (xs ++ ys) acc =
      match digitsVal xs acc with
      | some a => digitsVal ys a
      | none => none := by
  induction xs generalizing acc with
  | nil => simp [digitsVal]
  | cons c rest ih =>
    by_cases hc : c.isDigit
    · rw [List.cons_append, digitsVal, if_pos hc, ih]
      rw [digitsVal, if_pos hc]
    · rw [List.cons_append, digitsVal, if_neg hc]
      rw [digitsVal, if_neg hc]

theorem natToStrGo_val (fuel : Nat) :
    ∀ n acc, n ≤ fuel →
      digitsVal (natToStrGo fuel n) acc =
        some (acc * 10 ^ (natToStrGo fuel n).length + n) := by
  induction fuel with
  | zero =>
    intro n acc h
    interval_cases n
    simp [natToStrGo, digitsVal]
  | succ f ih =>
    intro n acc h
    cases n with
    | zero => simp [natToStrGo, digitsVal]
    | succ m =>
      have hle : (m + 1) / 10 ≤ f := by omega
      have hd : (m + 1) % 10 < 10 := Nat.mod_lt _ (by norm_num)
      rw [natToStrGo_succ, digitsVal_append, ih _ acc hle]
      show digitsVal [digitChar ((m + 1) % 10)]
          (acc * 10 ^ (natToStrGo f ((m + 1) / 10)).length + (m + 1) / 10) = _
      rw [digitsVal, if_pos (digitChar_isDigit _ hd), digitChar_toNat _ hd,
        digitsVal]
      have hqr : (m + 1) / 10 * 10 + (m + 1) % 10 = m + 1 := by omega
      simp only [List.length_append, List.length_singleton, pow_succ]
      congr 1
      ring_nf
      omega

theorem natToStrGo_ne_nil (fuel n : Nat) (h1 : n ≤ fuel) (h2 : n ≠ 0) :
    natToStrGo fuel n ≠ [] := by
  cases fuel with
  | zero => omega
  | succ f =>
    cases n with
    | zero => omega
    | succ m => rw [natToStrGo_succ]; simp

theorem natToStrGo_head (fuel n : Nat) (h1 : n ≤ fuel) (h2 : n ≠ 0) :
    (natToStrGo fuel n).head? ≠ some '0' := by
  induction fuel generalizing n with
  | zero => omega
  | succ f ih =>
    cases n with
    | zero => omega
    | succ m =>
      rw [natToStrGo_succ]
      by_cases hq : (m + 1) / 10 = 0
      · have hsmall : m + 1 < 10 := by omega
        rw [hq]
        have hz : natToStrGo f 0 = [] := by cases f <;> rfl
        rw [hz]
        simp only [List.nil_append, List.head?_cons]
        intro hcon
        have hcz : digitChar ((m + 1) % 10) = '0' := by simpa using hcon
        rw [digitChar_eq_zero _ (Nat.mod_lt _ (by norm_num))] at hcz
        omega
      · have hle : (m + 1) / 10 ≤ f := by omega
        have hne := natToStrGo_ne_nil f ((m + 1) / 10) hle hq
        have hih := ih ((m + 1) / 10) hle hq
        cases hg : natToStrGo f ((m + 1) / 10) with
        | nil => exact absurd hg hne
        | cons a rest =>
          rw [hg] at hih
          simpa using hih

theorem strictIndex_natToStr (i : Nat) : strictIndex (natToStr i) = some i := by
  by_cases hi : i = 0
  · subst hi; rfl
  · rw [natToStr, if_neg hi, strictIndex]
    have hval := natToStrGo_val i i 0 (le_refl i)
    have hhead := natToStrGo_head i i (le_refl i) hi
    rw [if_neg (natToStrGo_ne_nil i i (le_refl i) hi), if_neg ?hzero,
      if_neg hhead]
    · simpa using hval
    case hzero =>
      intro hcon
      rw [hcon] at hval
      simp [digitsVal] at hval
      omega

theorem natToStr_no_slash (i : Nat) : '/' ∉ natToStr i := by
  by_cases hi : i = 0
  · subst hi; decide
  · rw [natToStr, if_neg hi]
    intro hm
    rcases natToStrGo_chars i i '/' hm with ⟨d, hd, he⟩
    exact digitChar_ne_slash d hd he.symm

theorem natToStr_no_tilde (i : Nat) : '~' ∉ natToStr i := by
  by_cases hi : i = 0
  · subst hi; decide
  · rw [natToStr, if_neg hi]
    intro hm
    rcases natToStrGo_chars i i '~' hm with ⟨d, hd, he⟩
    exact digitChar_ne_tilde d hd he.symm

theorem parse_append_escape (p : Str) (ts : List Str) (x : Str)
    (hp : parsePointerStrict p = some ts) :
    parsePointerStrict (p ++ '/' :: escape_segment x) = some (ts ++ [x]) := by
  rw [parse_append_raw p (escape_segment x) ts (validEscapes_escape x)
    (escape_no_slash x) hp, unescape_escape]

theorem parse_append_idx (p : Str) (ts : List Str) (i : Nat)
    (hp : parsePointerStrict p = some ts) :
    parsePointerStrict (p ++ '/' :: natToStr i) = some (ts ++ [natToStr i]) := by
  rw [parse_append_raw p (natToStr i) ts
    (validEscapes_no_tilde _ (natToStr_no_tilde i)) (natToStr_no_slash i) hp,
    unescape_no_tilde _ (natToStr_no_tilde i)]

theorem resolveTokens_snoc (ts : List Str) (tok : Str) (R : Json) :
    resolveTokensStrict (ts ++ [tok]) R =
      match resolveTokensStrict ts R with
      | some v => resolveTokensStrict [tok] v
      | none => none := by
  induction ts generalizing R with
  | nil => rfl
  | cons hd rest ih =>
    cases R with
    | obj es =>
      simp only [List.cons_append, resolveTokensStrict]
      cases Json.objFind es hd with
      | none => rfl
      | some v => exact ih v
    | arr es =>
      simp only [List.cons_append, resolveTokensStrict]
      cases strictIndex hd with
      | none => rfl
      | some i =>
        have hstep : ∀ ov : Option Json,
            (match ov with
             | some v => resolveTokensStrict (rest ++ [tok]) v
             | none => none) =
              match (match ov with
                     | some v => resolveTokensStrict rest v
                     | none => none) with
              | some v => resolveTokensStrict [tok] v
              | none => none := by
          intro ov
          cases ov with
          | none => rfl
          | some v => exact ih v
        exact hstep es[i]?
    | null => rfl
    | str s => rfl
    | num n => rfl
    | bool b => rfl

/-! Object-map and predicate lemmas for the round-trip development. -/

theorem objFind_mapLeaves (f : Str → Json) (es : List (Str × Json)) (k : Str) :
    Json.objFind (mapLeavesEntries f es) k =
      (Json.objFind es k).map (mapLeaves f) := by
  induction es with
  | nil => rfl
  | cons e rest ih =>
    obtain ⟨k2, v⟩ := e
    rw [mapLeavesEntries]
    by_cases hk : k2 = k
    · simp [Json.objFind, hk]
    · simp only [Json.objFind, hk, if_false]
      exact ih

theorem mapLeavesEntries_objSet (f : Str → Json) (es : List (Str × Json))
    (k : Str) (w : Json) :
    mapLeavesEntries f (objSet es k w) =
      objSet (mapLeavesEntries f es) k (mapLeaves f w) := by
  induction es with
  | nil => rfl
  | cons e rest ih =>
    obtain ⟨k2, v⟩ := e
    by_cases hk : k2 = k
    · simp [objSet, hk, mapLeavesEntries]
    · by_cases hlt : strLt k k2
      · simp [objSet, hk, hlt, mapLeavesEntries]
      · simp [objSet, hk, hlt, mapLeavesEntries, ih]

theorem rtWF_objFind (es : List (Str × Json)) (k : Str) (v : Json)
    (hwf : rtWFEntries es = true) (hf : Json.objFind es k = some v) :
    rtWF v = true := by
  induction es with
  | nil => exact absurd hf (by simp [Json.objFind])
  | cons e rest ih =>
    obtain ⟨k2, w⟩ := e
    rw [rtWFEntries, Bool.and_eq_true] at hwf
    rw [Json.objFind] at hf
    by_cases hk : k2 = k
    · rw [if_pos hk] at hf
      exact (Option.some_inj.mp hf) ▸ hwf.1
    · rw [if_neg hk] at hf
      exact ih hwf.2 hf

theorem rtLeavesOK_objFind (R : Json) (es : List (Str × Json)) (k : Str)
    (v : Json) (hok : rtLeavesOKEntries R es = true)
    (hf : Json.objFind es k = some v) : rtLeavesOK R v = true := by
  induction es with
  | nil => exact absurd hf (by simp [Json.objFind])
  | cons e rest ih =>
    obtain ⟨k2, w⟩ := e
    rw [rtLeavesOKEntries, Bool.and_eq_true] at hok
    rw [Json.objFind] at hf
    by_cases hk : k2 = k
    · rw [if_pos hk] at hf
      exact (Option.some_inj.mp hf) ▸ hok.1
    · rw [if_neg hk] at hf
      exact ih hok.2 hf

theorem rtWFEntries_objSet (es : List (Str × Json)) (k : Str) (w : Json)
    (hwf : rtWFEntries es = true) (hw : rtWF w = true) :
    rtWFEntries (objSet es k w) = true := by
  induction es with
  | nil => simp [objSet, rtWFEntries, hw]
  | cons e rest ih =>
    obtain ⟨k2, v⟩ := e
    rw [rtWFEntries, Bool.and_eq_true] at hwf
    by_cases hk : k2 = k
    · simp [objSet, hk, rtWFEntries, hw, hwf.2]
    · by_cases hlt : strLt k k2
      · simp [objSet, hk, hlt, rtWFEntries, hw, hwf.1, hwf.2]
      · simp [objSet, hk, hlt, rtWFEntries, hwf.1, ih hwf.2]

theorem rtLeavesOKEntries_objSet (R : Json) (es : List (Str × Json)) (k : Str)
    (w : Json) (hok : rtLeavesOKEntries R es = true)
    (hw : rtLeavesOK R w = true) :
    rtLeavesOKEntries R (objSet es k w) = true := by
  induction es with
  | nil => simp [objSet, rtLeavesOKEntries, hw]
  | cons e rest ih =>
    obtain ⟨k2, v⟩ := e
    rw [rtLeavesOKEntries, Bool.and_eq_true] at hok
    by_cases hk : k2 = k
    · simp [objSet, hk, rtLeavesOKEntries, hw, hok.2]
    · by_cases hlt : strLt k k2
      · simp [objSet, hk, hlt, rtLeavesOKEntries, hw, hok.1, hok.2]
      · simp [objSet, hk, hlt, rtLeavesOKEntries, hok.1, ih hok.2]

theorem objFind_rtFwdEntries (o : Options) (ctx : Json)
    (es : List (Str × Json)) (k : Str) :
    Json.objFind (rtFwdEntries o ctx es) k =
      (Json.objFind es k).map (rtFwd o ctx) := by
  induction es with
  | nil => rfl
  | cons e rest ih =>
    obtain ⟨k2, v⟩ := e
    rw [rtFwdEntries]
    by_cases hk : k2 = k
    · simp [Json.objFind, hk]
    · simp only [Json.objFind, hk, if_false]
      exact ih

theorem rtFwdElems_getElem (o : Options) (ctx : Json) (es : List Json)
    (i : Nat) : (rtFwdElems o ctx es)[i]? = es[i]?.map (rtFwd o ctx) := by
  induction es generalizing i with
  | nil => simp [rtFwdElems]
  | cons v rest ih =>
    rw [rtFwdElems]
    cases i with
    | zero => simp
    | succ j => simpa using ih j

theorem mem_nodup_objFind (es : List (Str × Json)) (k : Str) (v : Json)
    (hm : (k, v) ∈ es) (hnd : (es.map Prod.fst).Nodup) :
    Json.objFind es k = some v := by
  induction es with
  | nil => exact absurd hm (by simp)
  | cons e rest ih =>
    obtain ⟨k2, w⟩ := e
    rw [List.map_cons, List.nodup_cons] at hnd
    rcases List.mem_cons.mp hm with he | he
    · rw [Json.objFind, if_pos (congrArg Prod.fst he).symm]
      exact congrArg some (congrArg Prod.snd he).symm
    · have hk : k2 ≠ k := by
        intro hk2
        exact hnd.1 (hk2 ▸ (List.mem_map.mpr ⟨(k, v), he, rfl⟩))
      rw [Json.objFind, if_neg hk]
      exact ih he hnd.2

theorem sizeOf_mem_entries (es : List (Str × Json)) (k : Str) (v : Json)
    (hm : (k, v) ∈ es) : sizeOf v < sizeOf (Json.obj es) := by
  have h1 := List.sizeOf_lt_of_mem hm
  have h2 : sizeOf (k, v) = 1 + sizeOf k + sizeOf v := rfl
  simp only [Json.obj.sizeOf_spec]
  omega

theorem sizeOf_mem_elems (es : List Json) (v : Json) (hm : v ∈ es) :
    sizeOf v < sizeOf (Json.arr es) := by
  have h1 := List.sizeOf_lt_of_mem hm
  simp only [Json.arr.sizeOf_spec]
  omega

theorem rtStringsOKEntries_mem (o : Options) (ctx : Json)
    (es : List (Str × Json)) (k : Str) (v : Json)
    (h : rtStringsOKEntries o ctx es = true) (hm : (k, v) ∈ es) :
    rtStringsOK o ctx v = true := by
  induction es with
  | nil => exact absurd hm (by simp)
  | cons e rest ih =>
    obtain ⟨k2, w⟩ := e
    rw [rtStringsOKEntries, Bool.and_eq_true] at h
    rcases List.mem_cons.mp hm with he | he
    · have hv : v = w := congrArg Prod.snd he
      rw [hv]; exact h.1
    · exact ih h.2 he

theorem rtStringsOKElems_mem (o : Options) (ctx : Json) (es : List Json)
    (v : Json) (h : rtStringsOKElems o ctx es = true) (hm : v ∈ es) :
    rtStringsOK o ctx v = true := by
  induction es with
  | nil => exact absurd hm (by simp)
  | cons w rest ih =>
    rw [rtStringsOKElems, Bool.and_eq_true] at h
    rcases List.mem_cons.mp hm with he | he
    · exact he ▸ h.1
    · exact ih h.2 he

theorem rtKeysOKEntries_mem (es : List (Str × Json)) (k : Str) (v : Json)
    (h : rtKeysOKEntries es = true) (hm : (k, v) ∈ es) :
    unescape_segment k = k ∧ rtKeysOK v = true := by
  induction es with
  | nil => exact absurd hm (by simp)
  | cons e rest ih =>
    obtain ⟨k2, w⟩ := e
    rw [rtKeysOKEntries, Bool.and_eq_true, Bool.and_eq_true] at h
    rcases List.mem_cons.mp hm with he | he
    · have hv : v = w := congrArg Prod.snd he
      have hkk : k = k2 := congrArg Prod.fst he
      subst hv; subst hkk
      exact ⟨of_decide_eq_true h.1.1, h.1.2⟩
    · exact ih h.2 he

theorem rtKeysOKElems_mem (es : List Json) (v : Json)
    (h : rtKeysOKElems es = true) (hm : v ∈ es) : rtKeysOK v = true := by
  induction es with
  | nil => exact absurd hm (by simp)
  | cons w rest ih =>
    rw [rtKeysOKElems, Bool.and_eq_true] at h
    rcases List.mem_cons.mp hm with he | he
    · exact he ▸ h.1
    · exact ih h.2 he

theorem depthNeed_mem_entries (es : List (Str × Json)) (k : Str) (v : Json)
    (hm : (k, v) ∈ es) : depthNeed v ≤ depthNeedEntries es := by
  induction es with
  | nil => exact absurd hm (by simp)
  | cons e rest ih =>
    obtain ⟨k2, w⟩ := e
    rw [depthNeedEntries]
    rcases List.mem_cons.mp hm with he | he
    · exact (congrArg (depthNeed ∘ Prod.snd) he).le.trans (le_max_left _ _)
    · exact (ih he).trans (le_max_right _ _)

theorem depthNeed_mem_elems (es : List Json) (v : Json) (hm : v ∈ es) :
    depthNeed v ≤ depthNeedElems es := by
  induction es with
  | nil => exact absurd hm (by simp)
  | cons w rest ih =>
    rw [depthNeedElems]
    rcases List.mem_cons.mp hm with he | he
    · exact he ▸ le_max_left _ _
    · exact (ih he).trans (le_max_right _ _)

theorem rtRefsEntries_mem (o : Options) (es : List (Str × Json)) (cur : Str)
    (pr : Str × Str) (hm : pr ∈ rtRefsEntries o es cur) :
    ∃ k v, (k, v) ∈ es ∧
      pr ∈ rtRefs o v (cur ++ '/' :: escape_segment (unescape_segment k)) := by
  induction es with
  | nil => exact absurd hm (by simp [rtRefsEntries])
  | cons e rest ih =>
    obtain ⟨k2, w⟩ := e
    rw [rtRefsEntries] at hm
    rcases List.mem_append.mp hm with he | he
    · exact ⟨k2, w, List.mem_cons_self _ _, he⟩
    · rcases ih he with ⟨k, v, hmem, hin⟩
      exact ⟨k, v, List.mem_cons_of_mem _ hmem, hin⟩

theorem rtRefsElems_mem (o : Options) (es : List Json) (cur : Str) (i : Nat)
    (pr : Str × Str) (hm : pr ∈ rtRefsElems o es cur i) :
    ∃ j v, es[j]? = some v ∧
      pr ∈ rtRefs o v (cur ++ '/' :: natToStr (i + j)) := by
  induction es generalizing i with
  | nil => exact absurd hm (by simp [rtRefsElems])
  | cons w rest ih =>
    rw [rtRefsElems] at hm
    rcases List.mem_append.mp hm with he | he
    · exact ⟨0, w, by simp, by simpa using he⟩
    · rcases ih (i + 1) he with ⟨j, v, hmem, hin⟩
      refine ⟨j + 1, v, by simpa using hmem, ?_⟩
      have : i + 1 + j = i + (j + 1) := by omega
      exact this ▸ hin

theorem rtInsertFold_append (T : Json) (a b : List (Str × Str)) :
    rtInsertFold T (a ++ b) =
      match rtInsertFold T a with
      | .error e => .error e
      | .ok T2 => rtInsertFold T2 b := by
  induction a generalizing T with
  | nil => rfl
  | cons pr rest ih =>
    obtain ⟨p, ptr⟩ := pr
    simp only [List.cons_append, rtInsertFold]
    cases insert_pointer_at_context_path T p ptr with
    | error e => rfl
    | ok T2 => exact ih T2

theorem build_entries_eq_fold (o : Options) (es : List (Str × Json)) :
    (∀ k v, (k, v) ∈ es → ∀ cur T,
      build_reverse_rec o v cur T = rtInsertFold T (rtRefs o v cur)) →
    ∀ cur T, build_reverse_entries o es cur T =
      rtInsertFold T (rtRefsEntries o es cur) := by
  induction es with
  | nil => intro hall cur T; rfl
  | cons e rest ih =>
    obtain ⟨k, v⟩ := e
    intro hall cur T
    rw [build_reverse_entries, rtRefsEntries, rtInsertFold_append,
      hall k v (List.mem_cons_self _ _)]
    cases rtInsertFold T
        (rtRefs o v (cur ++ '/' :: escape_segment (unescape_segment k))) with
    | error e => rfl
    | ok T2 => exact ih (fun k2 v2 hm => hall k2 v2 (List.mem_cons_of_mem _ hm)) cur T2

theorem build_elems_eq_fold (o : Options) (es : List Json) :
    (∀ v, v ∈ es → ∀ cur T,
      build_reverse_rec o v cur T = rtInsertFold T (rtRefs o v cur)) →
    ∀ cur i T, build_reverse_elems o es cur i T =
      rtInsertFold T (rtRefsElems o es cur i) := by
  induction es with
  | nil => intro hall cur i T; rfl
  | cons v rest ih =>
    intro hall cur i T
    rw [build_reverse_elems, rtRefsElems, rtInsertFold_append,
      hall v (List.mem_cons_self _ _)]
    cases rtInsertFold T (rtRefs o v (cur ++ '/' :: natToStr i)) with
    | error e => rfl
    | ok T2 => exact ih (fun v2 hm => hall v2 (List.mem_cons_of_mem _ hm)) cur (i + 1) T2

theorem build_eq_fold (o : Options) :
    ∀ n node, sizeOf node ≤ n → ∀ cur T,
      build_reverse_rec o node cur T = rtInsertFold T (rtRefs o node cur) := by
  intro n
  induction n using Nat.strong_induction_on with
  | _ n ih =>
    intro node hsz cur T
    cases node with
    | obj es =>
      rw [build_reverse_rec, rtRefs]
      exact build_entries_eq_fold o es
        (fun k v hm cur2 T2 =>
          ih (sizeOf v) (lt_of_lt_of_le (sizeOf_mem_entries es k v hm) hsz)
            v (le_refl _) cur2 T2) cur T
    | arr es =>
      rw [build_reverse_rec, rtRefs]
      exact build_elems_eq_fold o es
        (fun v hm cur2 T2 =>
          ih (sizeOf v) (lt_of_lt_of_le (sizeOf_mem_elems es v hm) hsz)
            v (le_refl _) cur2 T2) cur 0 T
    | str s =>
      rw [build_reverse_rec, rtRefs]
      by_cases hv : (extract_placeholder_info o.variableStartMarker
          o.variableEndMarker s).is_valid = true
      · rw [if_pos hv, if_pos hv, rtInsertFold]
        cases insert_pointer_at_context_path T
            (extract_placeholder_info o.variableStartMarker
              o.variableEndMarker s).path cur with
        | error e => rfl
        | ok T2 => rfl
      · rw [if_neg hv, if_neg hv]; rfl
    | null => rfl
    | num i => rfl
    | bool b => rfl

theorem insert_at_obj (es : List (Str × Json)) (segs : List Str) (ptr : Str)
    (T2 : Json) (h : insert_at (.obj es) segs ptr = .ok T2) :
    ∃ es2, T2 = .obj es2 := by
  cases segs with
  | nil =>
    rw [insert_at] at h
    exact ⟨es, (Except.ok.inj h).symm⟩
  | cons s1 rest =>
    cases rest with
    | nil =>
      rw [insert_at] at h
      cases hf : Json.objFind es s1 with
      | none =>
        simp only [hf] at h
        exact ⟨_, (Except.ok.inj h).symm⟩
      | some v =>
        simp only [hf] at h
        by_cases hv : v = .str ptr
        · simp only [if_pos hv] at h
          exact ⟨es, (Except.ok.inj h).symm⟩
        · simp only [if_neg hv] at h
          exact absurd h (by simp)
    | cons s2 rest2 =>
      rw [insert_at] at h
      cases hf : Json.objFind es s1 with
      | none =>
        simp only [hf] at h
        cases hI : insert_at (.obj []) (s2 :: rest2) ptr with
        | error e => simp only [hI] at h; exact absurd h (by simp)
        | ok sub => simp only [hI] at h; exact ⟨_, (Except.ok.inj h).symm⟩
      | some v =>
        simp only [hf] at h
        cases v with
        | obj es2 =>
          cases hI : insert_at (.obj es2) (s2 :: rest2) ptr with
          | error e => simp only [hI] at h; exact absurd h (by simp)
          | ok sub => simp only [hI] at h; exact ⟨_, (Except.ok.inj h).symm⟩
        | null => exact absurd h (by simp)
        | str s => exact absurd h (by simp)
        | num i => exact absurd h (by simp)
        | bool b => exact absurd h (by simp)
        | arr es3 => exact absurd h (by simp)
      simp

theorem rtWF_entries (es : List (Str × Json)) :
    rtWF (Json.obj es) = rtWFEntries es := by
  rw [rtWF]

theorem rtLeavesOK_entries (R : Json) (es : List (Str × Json)) :
    rtLeavesOK R (Json.obj es) = rtLeavesOKEntries R es := by
  rw [rtLeavesOK]

theorem insertT_nil (T leaf : Json) : insertT T [] leaf = T := by
  cases T <;> rfl

theorem insert_at_cons2 (es : List (Str × Json)) (seg s2 : Str)
    (rest2 : List Str) (ptr : Str) :
    insert_at (.obj es) (seg :: s2 :: rest2) ptr =
      match Json.objFind es seg with
      | some (.obj es2) =>
        (match insert_at (.obj es2) (s2 :: rest2) ptr with
         | .error e => .error e
         | .ok sub => .ok (.obj (objSet es seg sub)))
      | some (.null) => .error .runtimeError
      | some (.bool _) => .error .runtimeError
      | some (.num _) => .error .runtimeError
      | some (.str _) => .error .runtimeError
      | some (.arr _) => .error .runtimeError
      | none =>
        (match insert_at (.obj []) (s2 :: rest2) ptr with
         | .error e => .error e
         | .ok sub => .ok (.obj (objSet es seg sub))) := by
  rw [insert_at]
  · cases Json.objFind es seg with
    | none => rfl
    | some v => cases v <;> rfl
  · simp

theorem insertT_one (es : List (Str × Json)) (seg : Str) (leaf : Json) :
    insertT (.obj es) [seg] leaf =
      match Json.objFind es seg with
      | some _ => Json.obj es
      | none => Json.obj (objSet es seg leaf) := by
  rw [insertT]

theorem insertT_cons2 (es : List (Str × Json)) (seg s2 : Str)
    (rest2 : List Str) (leaf : Json) :
    insertT (.obj es) (seg :: s2 :: rest2) leaf =
      match Json.objFind es seg with
      | some sub => Json.obj (objSet es seg (insertT sub (s2 :: rest2) leaf))
      | none =>
        Json.obj (objSet es seg (insertT (.obj []) (s2 :: rest2) leaf)) := by
  rw [insertT]
  simp

theorem mapLeaves_obj (f : Str → Json) (es : List (Str × Json)) :
    mapLeaves f (Json.obj es) = Json.obj (mapLeavesEntries f es) := by
  rw [mapLeaves]

theorem insert_at_step (R : Json) (ptr : Str) (w : Json)
    (hres : resolveStrict R ptr = some w) :
    ∀ segs T T2, insert_at T segs ptr = .ok T2 →
      rtWF T = true → rtLeavesOK R T = true →
      rtWF T2 = true ∧ rtLeavesOK R T2 = true ∧
        mapLeaves (rtLook R) T2 =
          insertT (mapLeaves (rtLook R) T) segs (rtLook R ptr) := by
  intro segs
  induction segs with
  | nil =>
    intro T T2 h hwf hlk
    rw [insert_at] at h
    have hT : T = T2 := Except.ok.inj h
    subst hT
    exact ⟨hwf, hlk, (insertT_nil _ _).symm⟩
  | cons seg rest ih =>
    intro T T2 h hwf hlk
    cases rest with
    | nil =>
      cases T with
      | obj es =>
        rw [insert_at] at h
        cases hf : Json.objFind es seg with
        | some v =>
          simp only [hf] at h
          by_cases hv : v = .str ptr
          · simp only [if_pos hv] at h
            have hT : Json.obj es = T2 := Except.ok.inj h
            subst hT
            refine ⟨hwf, hlk, ?_⟩
            rw [mapLeaves_obj, insertT_one, objFind_mapLeaves, hf]
            rfl
          · simp only [if_neg hv] at h
            exact absurd h (by simp)
        | none =>
          simp only [hf] at h
          have hT : Json.obj (objSet es seg (.str ptr)) = T2 := Except.ok.inj h
          subst hT
          rw [rtWF_entries] at hwf
          rw [rtLeavesOK_entries] at hlk
          refine ⟨?_, ?_, ?_⟩
          · rw [rtWF_entries]
            exact rtWFEntries_objSet es seg (.str ptr) hwf rfl
          · rw [rtLeavesOK_entries]
            refine rtLeavesOKEntries_objSet R es seg (.str ptr) hlk ?_
            rw [rtLeavesOK, hres]
            rfl
          · rw [mapLeaves_obj, mapLeaves_obj, insertT_one, objFind_mapLeaves,
              hf, mapLeavesEntries_objSet]
            rfl
      | null => exact absurd h (by simp [insert_at])
      | str s => exact absurd h (by simp [insert_at])
      | num i => exact absurd h (by simp [insert_at])
      | bool b => exact absurd h (by simp [insert_at])
      | arr es => exact absurd h (by simp [insert_at])
    | cons s2 rest2 =>
      cases T with
      | obj es =>
        rw [insert_at_cons2] at h
        cases hf : Json.objFind es seg with
        | some v =>
          simp only [hf] at h
          cases v with
          | obj es2 =>
            cases hI : insert_at (.obj es2) (s2 :: rest2) ptr with
            | error e => simp only [hI] at h; exact absurd h (by simp)
            | ok sub =>
              simp only [hI] at h
              have hT : Json.obj (objSet es seg sub) = T2 := Except.ok.inj h
              subst hT
              rw [rtWF_entries] at hwf
              rw [rtLeavesOK_entries] at hlk
              have hwf2 : rtWF (Json.obj es2) = true :=
                rtWF_objFind es seg (Json.obj es2) hwf hf
              have hlk2 : rtLeavesOK R (Json.obj es2) = true :=
                rtLeavesOK_objFind R es seg (Json.obj es2) hlk hf
              obtain ⟨hwfs, hlks, hcomm⟩ := ih (.obj es2) sub hI hwf2 hlk2
              refine ⟨?_, ?_, ?_⟩
              · rw [rtWF_entries]
                exact rtWFEntries_objSet es seg sub hwf hwfs
              · rw [rtLeavesOK_entries]
                exact rtLeavesOKEntries_objSet R es seg sub hlk hlks
              · rw [mapLeaves_obj, mapLeaves_obj, mapLeavesEntries_objSet,
                  insertT_cons2, objFind_mapLeaves, hf, hcomm]
                rfl
          | null => exact absurd h (by simp)
          | str s => exact absurd h (by simp)
          | num i => exact absurd h (by simp)
          | bool b => exact absurd h (by simp)
          | arr es3 => exact absurd h (by simp)
        | none =>
          simp only [hf] at h
          cases hI : insert_at (.obj []) (s2 :: rest2) ptr with
          | error e => simp only [hI] at h; exact absurd h (by simp)
          | ok sub =>
            simp only [hI] at h
            have hT : Json.obj (objSet es seg sub) = T2 := Except.ok.inj h
            subst hT
            rw [rtWF_entries] at hwf
            rw [rtLeavesOK_entries] at hlk
            obtain ⟨hwfs, hlks, hcomm⟩ := ih (.obj []) sub hI rfl rfl
            refine ⟨?_, ?_, ?_⟩
            · rw [rtWF_entries]
              exact rtWFEntries_objSet es seg sub hwf hwfs
            · rw [rtLeavesOK_entries]
              exact rtLeavesOKEntries_objSet R es seg sub hlk hlks
            · rw [mapLeaves_obj, mapLeaves_obj, mapLeavesEntries_objSet,
                insertT_cons2, objFind_mapLeaves, hf, hcomm]
              rfl
      | null => exact absurd h (by simp [insert_at])
      | str s => exact absurd h (by simp [insert_at])
      | num i => exact absurd h (by simp [insert_at])
      | bool b => exact absurd h (by simp [insert_at])
      | arr es3 => exact absurd h (by simp [insert_at])

theorem insert_pointer_step (R T : Json) (p ptr : Str) (T2 w : Json)
    (hres : resolveStrict R ptr = some w)
    (h : insert_pointer_at_context_path T p ptr = .ok T2)
    (hwf : rtWF T = true) (hlk : rtLeavesOK R T = true) :
    rtWF T2 = true ∧ rtLeavesOK R T2 = true ∧
      mapLeaves (rtLook R) T2 =
        insertT (mapLeaves (rtLook R) T) (segsD p) (rtLook R ptr) := by
  rw [insert_pointer_at_context_path] at h
  by_cases hg : p = [] ∨ p.head? ≠ some '/'
  · rw [if_pos hg] at h
    exact absurd h (by simp)
  · rw [if_neg hg] at h
    cases hp : parse_segments p with
    | error e => rw [hp] at h; exact absurd h (by simp)
    | ok segs =>
      rw [hp] at h
      have hsegs : segsD p = segs := by rw [segsD, hp]
      rw [hsegs]
      exact insert_at_step R ptr w hres segs T T2 h hwf hlk

theorem fold_commute (R ctx : Json) :
    ∀ refs (T T2 : Json), rtInsertFold T refs = .ok T2 →
      (∀ pr ∈ refs, resolveStrict R pr.2 = some (rtVal ctx pr.1)) →
      rtWF T = true → rtLeavesOK R T = true →
      rtWF T2 = true ∧ rtLeavesOK R T2 = true ∧
        mapLeaves (rtLook R) T2 = refs.foldl
          (fun T pr => insertT T (segsD pr.1) (rtVal ctx pr.1))
          (mapLeaves (rtLook R) T) := by
  intro refs
  induction refs with
  | nil =>
    intro T T2 h hcorr hwf hlk
    rw [rtInsertFold] at h
    have hT : T = T2 := Except.ok.inj h
    subst hT
    exact ⟨hwf, hlk, rfl⟩
  | cons pr rest ih =>
    obtain ⟨p, ptr⟩ := pr
    intro T T2 h hcorr hwf hlk
    rw [rtInsertFold] at h
    cases hI : insert_pointer_at_context_path T p ptr with
    | error e => rw [hI] at h; exact absurd h (by simp)
    | ok Tm =>
      rw [hI] at h
      have hcorr1 : resolveStrict R ptr = some (rtVal ctx p) :=
        hcorr (p, ptr) (List.mem_cons_self _ _)
      obtain ⟨hwfm, hlkm, hcm⟩ :=
        insert_pointer_step R T p ptr Tm (rtVal ctx p) hcorr1 hI hwf hlk
      obtain ⟨hwf2, hlk2, hc2⟩ := ih Tm T2 h
        (fun pr2 hm => hcorr pr2 (List.mem_cons_of_mem _ hm)) hwfm hlkm
      refine ⟨hwf2, hlk2, ?_⟩
      rw [List.foldl_cons, hc2, hcm]
      have hlp : rtLook R ptr = rtVal ctx p := by
        rw [rtLook, hcorr1]
      rw [hlp]

theorem rtWFEntries_mem (es : List (Str × Json)) (k : Str) (v : Json)
    (h : rtWFEntries es = true) (hm : (k, v) ∈ es) : rtWF v = true := by
  induction es with
  | nil => exact absurd hm (by simp)
  | cons e rest ih =>
    obtain ⟨k2, w⟩ := e
    rw [rtWFEntries, Bool.and_eq_true] at h
    rcases List.mem_cons.mp hm with he | he
    · have hv : v = w := congrArg Prod.snd he
      rw [hv]; exact h.1
    · exact ih h.2 he

theorem rtLeavesOKEntries_mem (R : Json) (es : List (Str × Json)) (k : Str)
    (v : Json) (h : rtLeavesOKEntries R es = true) (hm : (k, v) ∈ es) :
    rtLeavesOK R v = true := by
  induction es with
  | nil => exact absurd hm (by simp)
  | cons e rest ih =>
    obtain ⟨k2, w⟩ := e
    rw [rtLeavesOKEntries, Bool.and_eq_true] at h
    rcases List.mem_cons.mp hm with he | he
    · have hv : v = w := congrArg Prod.snd he
      rw [hv]; exact h.1
    · exact ih h.2 he

theorem recon_fields_ok (R : Json) (es : List (Str × Json)) :
    (∀ k v, (k, v) ∈ es → reconstruct v R = .ok (mapLeaves (rtLook R) v)) →
    reconstruct_fields es R = .ok (mapLeavesEntries (rtLook R) es) := by
  induction es with
  | nil => intro hall; rfl
  | cons e rest ih =>
    obtain ⟨k, v⟩ := e
    intro hall
    rw [reconstruct_fields]
    simp only [hall k v (List.mem_cons_self _ _),
      ih (fun k2 v2 hm => hall k2 v2 (List.mem_cons_of_mem _ hm))]
    rw [mapLeavesEntries]

theorem recon_ok (R : Json) :
    ∀ n node, sizeOf node ≤ n → rtWF node = true →
      rtLeavesOK R node = true →
      reconstruct node R = .ok (mapLeaves (rtLook R) node) := by
  intro n
  induction n using Nat.strong_induction_on with
  | _ n ih =>
    intro node hsz hwf hlk
    cases node with
    | str p =>
      rw [reconstruct]
      rw [rtLeavesOK] at hlk
      cases hr : resolveStrict R p with
      | none => rw [hr] at hlk; exact absurd hlk (by simp)
      | some v =>
        simp only [hr]
        rw [mapLeaves, rtLook, hr]
    | obj es =>
      rw [reconstruct]
      rw [rtWF_entries] at hwf
      rw [rtLeavesOK_entries] at hlk
      have hall : ∀ k v, (k, v) ∈ es →
          reconstruct v R = .ok (mapLeaves (rtLook R) v) := by
        intro k v hm
        exact ih (sizeOf v)
          (lt_of_lt_of_le (sizeOf_mem_entries es k v hm) hsz) v (le_refl _)
          (rtWFEntries_mem es k v hwf hm) (rtLeavesOKEntries_mem R es k v hlk hm)
      simp only [recon_fields_ok R es hall]
      rw [mapLeaves_obj]
    | null => exact absurd hwf (by simp [rtWF])
    | num i => exact absurd hwf (by simp [rtWF])
    | bool b => exact absurd hwf (by simp [rtWF])
    | arr es => exact absurd hwf (by simp [rtWF])

/-- The object loop of `reconstruct` fails with the `runtime_error` model
whenever some entry subtree contains a malformed node or an unresolved
leaf pointer: entries before the first failing one reconstruct, and the
failure then aborts the loop, so nothing is returned. -/
theorem recon_fields_bad (res : Json) (es : List (Str × Json)) :
    (∀ k v, (k, v) ∈ es → (rtWF v && rtLeavesOK res v) = false →
      reconstruct v res = .error .runtimeError) →
    (rtWFEntries es && rtLeavesOKEntries res es) = false →
    reconstruct_fields es res = .error .runtimeError := by
  induction es with
  | nil =>
    intro _ hbad
    exact absurd hbad (by simp [rtWFEntries, rtLeavesOKEntries])
  | cons e rest ih =>
    obtain ⟨k, v⟩ := e
    intro hallbad hbad
    by_cases hv : (rtWF v && rtLeavesOK res v) = false
    · rw [reconstruct_fields]
      simp only [hallbad k v (List.mem_cons_self _ _) hv]
    · have hv2 : (rtWF v && rtLeavesOK res v) = true := by
        cases h : (rtWF v && rtLeavesOK res v) with
        | false => exact absurd h hv
        | true => rfl
      rw [Bool.and_eq_true] at hv2
      have hok := recon_ok res (sizeOf v) v (le_refl _) hv2.1 hv2.2
      have hrest : (rtWFEntries rest && rtLeavesOKEntries res rest) = false := by
        rw [rtWFEntries, rtLeavesOKEntries] at hbad
        simpa [hv2.1, hv2.2] using hbad
      rw [reconstruct_fields]
      simp only [hok,
        ih (fun k2 v2 hm hb => hallbad k2 v2 (List.mem_cons_of_mem _ hm) hb)
          hrest]

/-- `reconstruct` fails with the `runtime_error` model on every node whose
subtree contains a value that is neither an object nor a string, or a
string leaf whose pointer is absent from the result. -/
theorem recon_bad (res : Json) :
    ∀ n node, sizeOf node ≤ n →
      (rtWF node && rtLeavesOK res node) = false →
      reconstruct node res = .error .runtimeError := by
  intro n
  induction n using Nat.strong_induction_on with
  | _ n ih =>
    intro node hsz hbad
    cases node with
    | obj es =>
      rw [reconstruct]
      have hb2 : (rtWFEntries es && rtLeavesOKEntries res es) = false := by
        rw [rtWF_entries, rtLeavesOK_entries] at hbad
        exact hbad
      simp only [recon_fields_bad res es
        (fun k v hm hb => ih (sizeOf v)
          (lt_of_lt_of_le (sizeOf_mem_entries es k v hm) hsz) v (le_refl _) hb)
        hb2]
    | str p =>
      rw [reconstruct]
      have hlk : rtLeavesOK res (Json.str p) = false := by
        rw [rtWF] at hbad
        simpa using hbad
      rw [rtLeavesOK] at hlk
      cases hr : resolveStrict res p with
      | some v => rw [hr] at hlk; exact absurd hlk (by simp)
      | none => simp only [hr]
    | null => rfl
    | num i => rfl
    | bool b => rfl
    | arr es => rfl

theorem rtFwd_obj (o : Options) (ctx : Json) (es : List (Str × Json)) :
    rtFwd o ctx (Json.obj es) = Json.obj (rtFwdEntries o ctx es) := by
  rw [rtFwd]

theorem rtFwd_arr (o : Options) (ctx : Json) (es : List Json) :
    rtFwd o ctx (Json.arr es) = Json.arr (rtFwdElems o ctx es) := by
  rw [rtFwd]

theorem rtRefs_other (o : Options) (cur : Str) :
    rtRefs o Json.null cur = [] ∧ (∀ i, rtRefs o (Json.num i) cur = []) ∧
      (∀ b, rtRefs o (Json.bool b) cur = []) := by
  refine ⟨?_, fun i => ?_, fun b => ?_⟩ <;> (rw [rtRefs] <;> simp)

theorem look_aux (o : Options) (ctx troot : Json) :
    ∀ n sub, sizeOf sub ≤ n →
      rtStringsOK o ctx sub = true → rtKeysOK sub = true →
      ∀ pre ptoks, parsePointerStrict pre = some ptoks →
        resolveTokensStrict ptoks (rtFwd o ctx troot) = some (rtFwd o ctx sub) →
        ∀ pr ∈ rtRefs o sub pre,
          resolveStrict (rtFwd o ctx troot) pr.2 = some (rtVal ctx pr.1) := by
  intro n
  induction n using Nat.strong_induction_on with
  | _ n ih =>
    intro sub hsz hstr hkeys pre ptoks hparse hres pr hm
    cases sub with
    | str s =>
      rw [rtRefs] at hm
      by_cases hv : (extract_placeholder_info o.variableStartMarker
          o.variableEndMarker s).is_valid = true
      · rw [if_pos hv] at hm
        rcases List.mem_singleton.mp hm with rfl
        simp only [rtStringsOK] at hstr
        rw [if_pos hv, Bool.and_eq_true] at hstr
        cases hr : resolveStrict ctx (extract_placeholder_info
            o.variableStartMarker o.variableEndMarker s).path with
        | none => rw [hr] at hstr; exact absurd hstr.2 (by simp)
        | some v =>
          show resolveStrict (rtFwd o ctx troot) pre = some (rtVal ctx _)
          rw [resolveStrict, hparse, Option.some_bind, hres]
          rw [rtFwd]
          rw [if_pos hv, hr, rtVal, hr]
      · rw [if_neg hv] at hm
        exact absurd hm (by simp)
    | obj es =>
      rw [rtRefs] at hm
      rcases rtRefsEntries_mem o es pre pr hm with ⟨k, v, hmem, hin⟩
      rw [rtKeysOK, Bool.and_eq_true] at hkeys
      obtain ⟨hku, hkv⟩ := rtKeysOKEntries_mem es k v hkeys.2 hmem
      have hnd : (es.map Prod.fst).Nodup := of_decide_eq_true hkeys.1
      rw [rtStringsOK] at hstr
      have hstrv := rtStringsOKEntries_mem o ctx es k v hstr hmem
      have hparse2 := parse_append_escape pre ptoks (unescape_segment k) hparse
      rw [hku] at hparse2
      rw [hku] at hin
      have hres2 : resolveTokensStrict (ptoks ++ [k]) (rtFwd o ctx troot) =
          some (rtFwd o ctx v) := by
        rw [resolveTokens_snoc, hres, rtFwd_obj]
        show resolveTokensStrict [k] (Json.obj (rtFwdEntries o ctx es)) = _
        rw [resolveTokensStrict, objFind_rtFwdEntries,
          mem_nodup_objFind es k v hmem hnd]
        rfl
      exact ih (sizeOf v)
        (lt_of_lt_of_le (sizeOf_mem_entries es k v hmem) hsz) v (le_refl _)
        hstrv hkv _ _ hparse2 hres2 pr hin
    | arr es =>
      rw [rtRefs] at hm
      rcases rtRefsElems_mem o es pre 0 pr hm with ⟨j, v, hj, hin⟩
      simp only [Nat.zero_add] at hin
      rw [rtKeysOK] at hkeys
      have hmemv : v ∈ es := by
        rcases List.getElem?_eq_some.mp hj with ⟨hlt, hget⟩
        exact hget ▸ List.getElem_mem hlt
      have hkv := rtKeysOKElems_mem es v hkeys hmemv
      rw [rtStringsOK] at hstr
      have hstrv := rtStringsOKElems_mem o ctx es v hstr hmemv
      have hparse2 := parse_append_idx pre ptoks j hparse
      have hres2 : resolveTokensStrict (ptoks ++ [natToStr j])
          (rtFwd o ctx troot) = some (rtFwd o ctx v) := by
        rw [resolveTokens_snoc, hres, rtFwd_arr]
        show resolveTokensStrict [natToStr j] (Json.arr (rtFwdElems o ctx es)) = _
        rw [resolveTokensStrict, strictIndex_natToStr]
        show (match (rtFwdElems o ctx es)[j]? with
              | some w => resolveTokensStrict [] w
              | none => none) = some (rtFwd o ctx v)
        rw [rtFwdElems_getElem, hj]
        rfl
      exact ih (sizeOf v)
        (lt_of_lt_of_le (sizeOf_mem_elems es v hmemv) hsz) v (le_refl _)
        hstrv hkv _ _ hparse2 hres2 pr hin
    | null => exact absurd ((rtRefs_other o pre).1 ▸ hm) (by simp)
    | num i => exact absurd ((rtRefs_other o pre).2.1 i ▸ hm) (by simp)
    | bool b => exact absurd ((rtRefs_other o pre).2.2 b ▸ hm) (by simp)

theorem exactWrap_off (o : Options) (v : Json)
    (hi : o.enableStringInterpolation = false) : exactWrap o v = v := by
  simp [exactWrap, hi]

theorem extract_valid_pointer (a b s : Str)
    (h : (extract_placeholder_info a b s).is_valid = true) :
    is_valid_pointer (extract_placeholder_info a b s).path = true := by
  rw [extract_placeholder_info] at h ⊢
  by_cases he : is_exact_match_placeholder a b s = true
  · rw [if_pos he] at h ⊢
    by_cases hp : substrLen s a.length (s.length - a.length - b.length) = []
    · rw [if_pos hp] at h
      exact absurd h (by simp)
    · rw [if_neg hp] at h ⊢
      exact h
  · rw [if_neg he] at h
    exact absurd h (by simp)

theorem is_valid_pointer_head (p : Str) (h : is_valid_pointer p = true)
    (hne : p ≠ []) : p.head? = some '/' := by
  rw [is_valid_pointer, Bool.or_eq_true, Bool.and_eq_true] at h
  rcases h with h | h
  · exact absurd (of_decide_eq_true h) hne
  · exact of_decide_eq_true h.1

theorem depthNeed_pos (v : Json) : 1 ≤ depthNeed v := by
  cases v <;> (rw [depthNeed] <;> first | omega | simp)

theorem rtFwd_other (o : Options) (ctx : Json) :
    rtFwd o ctx Json.null = Json.null ∧
      (∀ i, rtFwd o ctx (Json.num i) = Json.num i) ∧
      (∀ b, rtFwd o ctx (Json.bool b) = Json.bool b) := by
  refine ⟨?_, fun i => ?_, fun b => ?_⟩ <;> (rw [rtFwd] <;> simp)

theorem process_node_obj (o : Options) (ctx : Json) (es : List (Str × Json))
    (active : List Str) (d : Nat) (h : ¬ o.maxRecursionDepth ≤ d) :
    process_node o ctx (Json.obj es) active d =
      match process_entries o ctx es active (d + 1) with
      | .error e => .error e
      | .ok es2 => .ok (.obj es2) := by
  rw [process_node]
  simp [h]

theorem process_node_arr (o : Options) (ctx : Json) (es : List Json)
    (active : List Str) (d : Nat) (h : ¬ o.maxRecursionDepth ≤ d) :
    process_node o ctx (Json.arr es) active d =
      match process_elems o ctx es active (d + 1) with
      | .error e => .error e
      | .ok es2 => .ok (.arr es2) := by
  rw [process_node]
  simp [h]

theorem process_node_other (o : Options) (ctx : Json) (active : List Str)
    (d : Nat) (h : ¬ o.maxRecursionDepth ≤ d) :
    process_node o ctx Json.null active d = .ok Json.null ∧
      (∀ i, process_node o ctx (Json.num i) active d = .ok (Json.num i)) ∧
      (∀ b, process_node o ctx (Json.bool b) active d = .ok (Json.bool b)) := by
  refine ⟨?_, fun i => ?_, fun b => ?_⟩ <;> (rw [process_node] <;> simp [h])

theorem fwd_entries (o : Options) (ctx : Json) (es : List (Str × Json))
    (d : Nat)
    (hall : ∀ k v, (k, v) ∈ es →
      process_node o ctx v [] d = .ok (rtFwd o ctx v)) :
    process_entries o ctx es [] d = .ok (rtFwdEntries o ctx es) := by
  induction es with
  | nil => rfl
  | cons e rest ih =>
    obtain ⟨k, v⟩ := e
    rw [process_entries]
    simp only [hall k v (List.mem_cons_self _ _),
      ih (fun k2 v2 hm => hall k2 v2 (List.mem_cons_of_mem _ hm))]
    rw [rtFwdEntries]

theorem fwd_elems (o : Options) (ctx : Json) (es : List Json) (d : Nat)
    (hall : ∀ v, v ∈ es →
      process_node o ctx v [] d = .ok (rtFwd o ctx v)) :
    process_elems o ctx es [] d = .ok (rtFwdElems o ctx es) := by
  induction es with
  | nil => rfl
  | cons v rest ih =>
    rw [process_elems]
    simp only [hall v (List.mem_cons_self _ _),
      ih (fun v2 hm => hall v2 (List.mem_cons_of_mem _ hm))]
    rw [rtFwdElems]

theorem fwd_aux (o : Options) (ctx : Json)
    (hi : o.enableStringInterpolation = false) :
    ∀ n sub, sizeOf sub ≤ n → rtStringsOK o ctx sub = true →
      ∀ d, d + depthNeed sub ≤ o.maxRecursionDepth →
      process_node o ctx sub [] d = .ok (rtFwd o ctx sub) := by
  intro n
  induction n using Nat.strong_induction_on with
  | _ n ih =>
    intro sub hsz hstr d hdep
    cases sub with
    | obj es =>
      rw [depthNeed] at hdep
      have hd : ¬ o.maxRecursionDepth ≤ d := by omega
      rw [process_node_obj o ctx es [] d hd, rtFwd_obj]
      rw [rtStringsOK] at hstr
      have hall : ∀ k v, (k, v) ∈ es →
          process_node o ctx v [] (d + 1) = .ok (rtFwd o ctx v) := by
        intro k v hm
        exact ih (sizeOf v)
          (lt_of_lt_of_le (sizeOf_mem_entries es k v hm) hsz) v (le_refl _)
          (rtStringsOKEntries_mem o ctx es k v hstr hm) (d + 1)
          (by have := depthNeed_mem_entries es k v hm; omega)
      simp only [fwd_entries o ctx es (d + 1) hall]
    | arr es =>
      rw [depthNeed] at hdep
      have hd : ¬ o.maxRecursionDepth ≤ d := by omega
      rw [process_node_arr o ctx es [] d hd, rtFwd_arr]
      rw [rtStringsOK] at hstr
      have hall : ∀ v, v ∈ es →
          process_node o ctx v [] (d + 1) = .ok (rtFwd o ctx v) := by
        intro v hm
        exact ih (sizeOf v)
          (lt_of_lt_of_le (sizeOf_mem_elems es v hm) hsz) v (le_refl _)
          (rtStringsOKElems_mem o ctx es v hstr hm) (d + 1)
          (by have := depthNeed_mem_elems es v hm; omega)
      simp only [fwd_elems o ctx es (d + 1) hall]
    | str s =>
      rw [depthNeed] at hdep
      have hd : ¬ o.maxRecursionDepth ≤ d := by omega
      have hd1 : ¬ o.maxRecursionDepth ≤ d + 1 := by omega
      rw [process_node_str o ctx s [] d hd]
      by_cases hv : (extract_placeholder_info o.variableStartMarker
          o.variableEndMarker s).is_valid = true
      · rw [process_string_exact o ctx s [] d hd _ rfl hv]
        simp only [rtStringsOK] at hstr
        rw [if_pos hv, Bool.and_eq_true] at hstr
        have hp : (extract_placeholder_info o.variableStartMarker
            o.variableEndMarker s).path ≠ [] := of_decide_eq_true hstr.1
        cases hr : resolveStrict ctx (extract_placeholder_info
            o.variableStartMarker o.variableEndMarker s).path with
        | none => rw [hr] at hstr; exact absurd hstr.2 (by simp)
        | some v =>
          have hinert := hstr.2
          rw [hr] at hinert
          have hhead := is_valid_pointer_head _
            (extract_valid_pointer o.variableStartMarker
              o.variableEndMarker s hv) hp
          have hrp := resolve_path_found ctx _ o v hp hhead hr
          rw [rtFwd, if_pos hv, hr]
          cases v with
          | str s2 =>
            rw [exact_step_found_str o ctx _ [] d s2 hp (by simp) hrp]
            have hinv : (extract_placeholder_info o.variableStartMarker
                o.variableEndMarker s2).is_valid = false := by
              simpa [rtInert] using hinert
            rw [process_string_literal o ctx s2 _ (d + 1) hd1 hinv hi]
            show Except.ok (exactWrap o (Json.str s2)) = Except.ok (Json.str s2)
            rw [exactWrap_off o _ hi]
          | null =>
            rw [exact_step_found_value o ctx _ [] d _ (by simp) hrp
              (fun s3 h3 => by cases h3)]
            rw [exactWrap_off o _ hi]
          | num i2 =>
            rw [exact_step_found_value o ctx _ [] d _ (by simp) hrp
              (fun s3 h3 => by cases h3)]
            rw [exactWrap_off o _ hi]
          | bool b =>
            rw [exact_step_found_value o ctx _ [] d _ (by simp) hrp
              (fun s3 h3 => by cases h3)]
            rw [exactWrap_off o _ hi]
          | obj es2 =>
            rw [exact_step_found_value o ctx _ [] d _ (by simp) hrp
              (fun s3 h3 => by cases h3)]
            rw [exactWrap_off o _ hi]
          | arr es2 =>
            rw [exact_step_found_value o ctx _ [] d _ (by simp) hrp
              (fun s3 h3 => by cases h3)]
            rw [exactWrap_off o _ hi]
      · have hv2 : (extract_placeholder_info o.variableStartMarker
            o.variableEndMarker s).is_valid = false := by
          simpa using hv
        rw [process_string_literal o ctx s [] d hd hv2 hi]
        rw [rtFwd, if_neg hv]
    | null =>
      have hd : ¬ o.maxRecursionDepth ≤ d := by
        have h1 := depthNeed_pos Json.null
        omega
      rw [(process_node_other o ctx [] d hd).1, (rtFwd_other o ctx).1]
    | num i =>
      have hd : ¬ o.maxRecursionDepth ≤ d := by
        have h1 := depthNeed_pos (Json.num i)
        omega
      rw [(process_node_other o ctx [] d hd).2.1 i, (rtFwd_other o ctx).2.1 i]
    | bool b =>
      have hd : ¬ o.maxRecursionDepth ≤ d := by
        have h1 := depthNeed_pos (Json.bool b)
        omega
      rw [(process_node_other o ctx [] d hd).2.2 b, (rtFwd_other o ctx).2.2 b]

theorem rtInsertFold_obj :
    ∀ refs (es : List (Str × Json)) (T2 : Json),
      rtInsertFold (.obj es) refs = .ok T2 → ∃ es2, T2 = .obj es2 := by
  intro refs
  induction refs with
  | nil =>
    intro es T2 h
    exact ⟨es, (Except.ok.inj h).symm⟩
  | cons pr rest ih =>
    obtain ⟨p, ptr⟩ := pr
    intro es T2 h
    rw [rtInsertFold] at h
    cases hI : insert_pointer_at_context_path (.obj es) p ptr with
    | error e => rw [hI] at h; exact absurd h (by simp)
    | ok Tm =>
      rw [hI] at h
      have hobj : ∃ esm, Tm = .obj esm := by
        rw [insert_pointer_at_context_path] at hI
        by_cases hg : p = [] ∨ p.head? ≠ some '/'
        · rw [if_pos hg] at hI; exact absurd hI (by simp)
        · rw [if_neg hg] at hI
          cases hp : parse_segments p with
          | error e => rw [hp] at hI; exact absurd hI (by simp)
          | ok segs => rw [hp] at hI; exact insert_at_obj es segs ptr Tm hI
      rcases hobj with ⟨esm, rfl⟩
      exact ih esm T2 h

end PermutoA

/-! ## Claim theorems -/

/-- A default-marker placeholder: the start marker, a path text, and the
end marker. -/
def phText (p : Str) : Str := '$' :: '{' :: (p ++ ['}'])

/-- C1.  Evaluation of generation A at the failing input: with string
interpolation enabled, an exact-match placeholder resolving to the number
`123` yields the string `"123"` — the type is not preserved, contradicting
the claim, the header documentation of `apply`, and the repository test
`ExactMatchNumber_InterpOn`.  (The refactored
`TemplateProcessor::process_string` returns the resolved value unchanged,
as the claim states.) -/
theorem C1_exact_match_interp_on_stringifies :
    PermutoA.apply
      (Json.obj [("num".data, Json.str (phText "/d/num".data))])
      (Json.obj [("d".data, Json.obj [("num".data, Json.num 123)])])
      { enableStringInterpolation := true } =
      .ok (Json.obj [("num".data, Json.str "123".data)]) ∧
    Json.str "123".data ≠ Json.num 123 := by
  have hps : PermutoA.process_string
      { enableStringInterpolation := true }
      (Json.obj [("d".data, Json.obj [("num".data, Json.num 123)])])
      (phText "/d/num".data) [] 1 = .ok (Json.str "123".data) := by
    rw [PermutoA.process_string_exact _ _ _ _ _ (by decide)
      { path := "/d/num".data, full_placeholder := phText "/d/num".data,
        start_pos := 0, end_pos := 9, is_valid := true } (by decide) rfl]
    decide
  constructor
  · simp only [PermutoA.apply, PermutoA.process_node, PermutoA.process_entries,
      hps]
    decide
  · decide

/-- C5, counterexample.  On the template of the claim, whose placeholder
path `x` is not a JSON Pointer, the refactored parser treats the string as
a literal: nothing is removed and the output keeps both keys, contradicting
the claimed result. -/
theorem C5_counterexample_dot_path_not_removed :
    PermutoB.applyB
      (Json.obj [("a".data, Json.str (phText "x".data)),
                 ("b".data, Json.str "keep".data)])
      (Json.obj [])
      { missing_key_behavior := .Remove } =
      .ok (Json.obj [("a".data, Json.str (phText "x".data)),
                     ("b".data, Json.str "keep".data)]) ∧
    Json.obj [("a".data, Json.str (phText "x".data)),
              ("b".data, Json.str "keep".data)] ≠
      Json.obj [("b".data, Json.str "keep".data)] := by
  constructor
  · decide
  · decide

/-- C5, amended.  With the path written as the JSON Pointer `/x` the claim
holds: under the Remove policy an object entry (and likewise an array
element) whose value is an exact-match placeholder resolving to nothing is
omitted entirely from the output container — not replaced by null or by
the placeholder text. -/
theorem C5_remove_policy_pointer_path :
    PermutoB.applyB
      (Json.obj [("a".data, Json.str (phText "/x".data)),
                 ("b".data, Json.str "keep".data)])
      (Json.obj [])
      { missing_key_behavior := .Remove } =
      .ok (Json.obj [("b".data, Json.str "keep".data)]) ∧
    PermutoB.applyB
      (Json.arr [Json.str (phText "/x".data), Json.str "keep".data])
      (Json.obj [])
      { missing_key_behavior := .Remove } =
      .ok (Json.arr [Json.str "keep".data]) := by
  constructor
  · decide
  · decide

/-- C6.  Evaluation of the code at the failing input of the claim: both
conflict kinds in `insert_pointer_at_context_path` throw
`std::runtime_error` instead of resolving deeper-wins / last-write-wins,
contradicting the claim, the spec, and the repository test
`ContextPathConflict` (which expects the deeper mapping to win).  A
later deeper insertion below an existing leaf fails, a later leaf over an
existing subtree fails, and two different leaves at the same context path
fail. -/
theorem C6_reverse_conflicts_throw :
    PermutoA.create_reverse_template
      (Json.obj [("val1".data, Json.str (phText "/a".data)),
                 ("val2".data, Json.str (phText "/a/b".data))]) {} =
      .error .runtimeError ∧
    PermutoA.create_reverse_template
      (Json.obj [("val1".data, Json.str (phText "/a/b".data)),
                 ("val2".data, Json.str (phText "/a".data))]) {} =
      .error .runtimeError ∧
    PermutoA.create_reverse_template
      (Json.obj [("x".data, Json.str (phText "/a".data)),
                 ("y".data, Json.str (phText "/a".data))]) {} =
      .error .runtimeError := by
  refine ⟨by decide, by decide, by decide⟩

/-- C7, counterexample.  A `null` reverse-template root is not an object,
yet `apply_reverse` returns an empty reconstructed context instead of
raising the Malformed failure the claim requires for every non-object
root (`nlohmann::json::empty()` answers true for `null`, and also for an
empty array). -/
theorem C7_counterexample_null_root_tolerated :
    PermutoA.apply_reverse Json.null (Json.obj [("x".data, Json.num 1)]) =
      .ok (Json.obj []) ∧
    PermutoA.apply_reverse (Json.arr []) (Json.obj [("x".data, Json.num 1)]) =
      .ok (Json.obj []) := by
  constructor
  · decide
  · decide

/-- C7, amended.  `apply_reverse` raises a Malformed (`runtime_error`)
failure whenever the root is neither an object nor `empty()` — a `null` or
empty-array root is tolerated and yields an empty object — and, for an
object root, whenever any node anywhere in the reverse template is neither
an object nor a string, or any string leaf anywhere names a pointer absent
from the result (`rtWF` and `rtLeavesOK` state exactly these two
conditions recursively); every such failure aborts the whole call with the
error alone, so no partial context is ever returned. -/
theorem C7_apply_reverse_malformed (rt res : Json) :
    (Json.isObj rt = false → Json.emptyJ rt = false →
      PermutoA.apply_reverse rt res = .error .runtimeError) ∧
    (Json.isObj rt = false → Json.emptyJ rt = true →
      PermutoA.apply_reverse rt res = .ok (.obj [])) ∧
    (Json.isObj rt = true →
      (PermutoA.rtWF rt && PermutoA.rtLeavesOK res rt) = false →
      PermutoA.apply_reverse rt res = .error .runtimeError) := by
  refine ⟨?_, ?_, ?_⟩
  · intro hobj hemp
    cases rt <;> simp_all [PermutoA.apply_reverse, Json.isObj, Json.emptyJ]
  · intro hobj hemp
    cases rt <;> simp_all [PermutoA.apply_reverse, Json.isObj, Json.emptyJ]
  · intro hobj hbad
    cases rt with
    | obj es =>
      rw [PermutoA.apply_reverse]
      exact PermutoA.recon_bad res (sizeOf (Json.obj es)) (Json.obj es)
        (le_refl _) hbad
    | null => exact absurd hobj (by simp [Json.isObj])
    | num i => exact absurd hobj (by simp [Json.isObj])
    | bool b => exact absurd hobj (by simp [Json.isObj])
    | str p => exact absurd hobj (by simp [Json.isObj])
    | arr es => exact absurd hobj (by simp [Json.isObj])

/-- C7, witness for the amended theorem: a non-empty non-object root, an
empty-array root, a number buried two levels deep in the reverse template,
and a two-entry template whose first leaf resolves while the second names
an absent pointer — each failure is total. -/
theorem C7_apply_reverse_malformed_witness :
    PermutoA.apply_reverse (Json.str "zzz".data) (Json.obj []) =
      .error .runtimeError ∧
    PermutoA.apply_reverse (Json.arr []) (Json.obj [("x".data, Json.num 1)]) =
      .ok (.obj []) ∧
    PermutoA.apply_reverse
      (Json.obj [("a".data, Json.obj [("b".data, Json.num 5)])])
      (Json.obj []) = .error .runtimeError ∧
    PermutoA.apply_reverse
      (Json.obj [("a".data, Json.str "/x".data),
                 ("b".data, Json.str "/missing".data)])
      (Json.obj [("x".data, Json.num 1)]) = .error .runtimeError := by
  refine ⟨?_, ?_, ?_, ?_⟩
  · exact (C7_apply_reverse_malformed (Json.str "zzz".data)
      (Json.obj [])).1 (by decide) (by decide)
  · exact (C7_apply_reverse_malformed (Json.arr [])
      (Json.obj [("x".data, Json.num 1)])).2.1 (by decide) (by decide)
  · exact (C7_apply_reverse_malformed
      (Json.obj [("a".data, Json.obj [("b".data, Json.num 5)])])
      (Json.obj [])).2.2 (by decide) (by decide)
  · exact (C7_apply_reverse_malformed
      (Json.obj [("a".data, Json.str "/x".data),
                 ("b".data, Json.str "/missing".data)])
      (Json.obj [("x".data, Json.num 1)])).2.2 (by decide) (by decide)

/-- C8, counterexample.  With valid markers but `maxRecursionDepth = 0`,
`apply` passes option validation and then raises a RecursionLimit failure
at the first node — not the configuration error the claim requires for
`max_recursion_depth < 1`. -/
theorem C8_counterexample_depth_zero_not_config :
    PermutoA.apply (Json.str "x".data) (Json.obj [])
      { maxRecursionDepth := 0 } = .error (.recursionDepth 0 0) ∧
    Err.recursionDepth 0 0 ≠ Err.invalidArgument := by
  constructor
  · decide
  · decide

/-- C8, amended.  Empty or identical markers are rejected eagerly — for
every template and context, `apply` (and `create_reverse_template`) fails
with the configuration error before any node of the template is processed;
but `max_recursion_depth` is not validated as configuration: a limit of 0
instead surfaces as an immediate RecursionLimit failure at the first
node. -/
theorem C8_config_validation (o : PermutoA.Options) (tpl ctx : Json) :
    (o.variableStartMarker = [] ∨ o.variableEndMarker = [] ∨
        o.variableStartMarker = o.variableEndMarker →
      PermutoA.apply tpl ctx o = .error .invalidArgument ∧
      PermutoA.create_reverse_template tpl o = .error .invalidArgument) ∧
    (o.validOk = true → o.maxRecursionDepth = 0 →
      PermutoA.apply tpl ctx o = .error (.recursionDepth 0 0)) := by
  constructor
  · intro h
    have hv : o.validOk = false := by
      rcases h with h | h | h <;> simp [PermutoA.Options.validOk, h]
    constructor
    · simp [PermutoA.apply, hv]
    · simp [PermutoA.create_reverse_template, hv]
  · intro hv hd
    simp only [PermutoA.apply, hv, if_true]
    rw [PermutoA.process_node_depth _ _ _ _ _ (by omega)]
    rw [hd]

/-- C8, witness. -/
theorem C8_config_validation_witness :
    PermutoA.apply (Json.str "x".data) (Json.obj [])
      { variableStartMarker := [] } = .error .invalidArgument ∧
    PermutoA.apply (Json.str "x".data) (Json.obj [])
      { maxRecursionDepth := 0 } = .error (.recursionDepth 0 0) := by
  refine ⟨((C8_config_validation { variableStartMarker := [] }
    (Json.str "x".data) (Json.obj [])).1 (Or.inl rfl)).1,
    (C8_config_validation { maxRecursionDepth := 0 }
      (Json.str "x".data) (Json.obj [])).2 (by decide) rfl⟩

/-- C10.  In `JsonPointer::resolve` of the refactored engine, any array
token whose leading characters parse as an unsigned integer `i` under
`std::stoull` semantics selects element `i` when in bounds — so
non-canonical tokens resolve like their canonical forms. -/
theorem C10_stoull_array_indexing (tok : Str) (i : Nat) (es : List Json)
    (rest : List Str) (h : PermutoB.stoullStr tok = some i)
    (hb : i < es.length) :
    PermutoB.resolveTokensB (tok :: rest) (Json.arr es) =
      PermutoB.resolveTokensB rest (es.get ⟨i, hb⟩) := by
  simp [PermutoB.resolveTokensB, h, List.getElem?_eq_getElem hb]

/-- C10, witness: the tokens `01`, ` 1`, `+1` and `1abc` all resolve to the
same element as `1`. -/
theorem C10_stoull_array_indexing_witness :
    PermutoB.resolveTokensB ["01".data] (Json.arr [Json.num 10, Json.num 20, Json.num 30]) =
      some (Json.num 20) ∧
    PermutoB.resolveTokensB [" 1".data] (Json.arr [Json.num 10, Json.num 20, Json.num 30]) =
      some (Json.num 20) ∧
    PermutoB.resolveTokensB ["+1".data] (Json.arr [Json.num 10, Json.num 20, Json.num 30]) =
      some (Json.num 20) ∧
    PermutoB.resolveTokensB ["1abc".data] (Json.arr [Json.num 10, Json.num 20, Json.num 30]) =
      some (Json.num 20) ∧
    PermutoB.resolveTokensB ["1".data] (Json.arr [Json.num 10, Json.num 20, Json.num 30]) =
      some (Json.num 20) := by
  refine ⟨?_, ?_, ?_, ?_, ?_⟩ <;>
    rw [C10_stoull_array_indexing _ 1 _ _ (by decide) (by decide)] <;> decide

/-- C3.  For every context in which `/a` resolves to the placeholder string
for `b` and `/b` to the placeholder string for `a`, `apply` on the template
that is exactly the placeholder for `a` raises a Cycle failure carrying the
re-entered path; likewise for a self-referential context.  (Dot paths `a`,
`b` normalize to the pointers `/a`, `/b`.) -/
theorem C3_cycle_detection (ctx ctx2 : Json) :
    (PermutoA.resolveStrict ctx "/a".data = some (Json.str (phText "b".data)) →
     PermutoA.resolveStrict ctx "/b".data = some (Json.str (phText "a".data)) →
     PermutoA.apply (Json.str (phText "a".data)) ctx {} =
       .error (.cycle "/a".data)) ∧
    (PermutoA.resolveStrict ctx2 "/a".data = some (Json.str (phText "a".data)) →
     PermutoA.apply (Json.str (phText "a".data)) ctx2 {} =
       .error (.cycle "/a".data)) := by
  constructor
  · intro h1 h2
    simp only [PermutoA.apply, show PermutoA.Options.validOk {} = true from rfl,
      if_true]
    rw [PermutoA.process_node_str _ _ _ _ _ (by decide)]
    rw [PermutoA.process_string_exact _ _ _ _ _ (by decide)
      { path := "/a".data, full_placeholder := phText "a".data,
        start_pos := 0, end_pos := 4, is_valid := true } (by decide) rfl]
    rw [PermutoA.exact_step_found_str _ _ _ _ _ _ (by decide) (by decide)
      (PermutoA.resolve_path_found _ _ _ _ (by decide) (by decide) h1)]
    rw [PermutoA.process_string_exact _ _ _ _ _ (by decide)
      { path := "/b".data, full_placeholder := phText "b".data,
        start_pos := 0, end_pos := 4, is_valid := true } (by decide) rfl]
    rw [PermutoA.exact_step_found_str _ _ _ _ _ _ (by decide) (by decide)
      (PermutoA.resolve_path_found _ _ _ _ (by decide) (by decide) h2)]
    rw [PermutoA.process_string_exact _ _ _ _ _ (by decide)
      { path := "/a".data, full_placeholder := phText "a".data,
        start_pos := 0, end_pos := 4, is_valid := true } (by decide) rfl]
    rw [PermutoA.exact_step_cycle _ _ _ _ _ (by decide) (by decide)]
  · intro h1
    simp only [PermutoA.apply, show PermutoA.Options.validOk {} = true from rfl,
      if_true]
    rw [PermutoA.process_node_str _ _ _ _ _ (by decide)]
    rw [PermutoA.process_string_exact _ _ _ _ _ (by decide)
      { path := "/a".data, full_placeholder := phText "a".data,
        start_pos := 0, end_pos := 4, is_valid := true } (by decide) rfl]
    rw [PermutoA.exact_step_found_str _ _ _ _ _ _ (by decide) (by decide)
      (PermutoA.resolve_path_found _ _ _ _ (by decide) (by decide) h1)]
    rw [PermutoA.process_string_exact _ _ _ _ _ (by decide)
      { path := "/a".data, full_placeholder := phText "a".data,
        start_pos := 0, end_pos := 4, is_valid := true } (by decide) rfl]
    rw [PermutoA.exact_step_cycle _ _ _ _ _ (by decide) (by decide)]

/-- C3, witness: the two-path cycle and the self-reference on concrete
contexts. -/
theorem C3_cycle_detection_witness :
    PermutoA.apply (Json.str (phText "a".data))
      (Json.obj [("a".data, Json.str (phText "b".data)),
                 ("b".data, Json.str (phText "a".data))]) {} =
      .error (.cycle "/a".data) ∧
    PermutoA.apply (Json.str (phText "a".data))
      (Json.obj [("a".data, Json.str (phText "a".data))]) {} =
      .error (.cycle "/a".data) := by
  refine ⟨(C3_cycle_detection
      (Json.obj [("a".data, Json.str (phText "b".data)),
                 ("b".data, Json.str (phText "a".data))])
      (Json.obj [("a".data, Json.str (phText "a".data))])).1
        (by decide) (by decide),
    (C3_cycle_detection
      (Json.obj [("a".data, Json.str (phText "b".data)),
                 ("b".data, Json.str (phText "a".data))])
      (Json.obj [("a".data, Json.str (phText "a".data))])).2 (by decide)⟩

/-- C9, counterexample.  The string consisting of the single placeholder
with content `/~2` fails path-format validation (`~2` is an invalid
pointer escape), so the claim requires it to be a literal, never resolved.
With interpolation enabled and the Error policy, however, the scanner of
`find_all_placeholders` re-validates only non-emptiness, resolves the
candidate, and `apply` raises a MissingKey failure instead of returning
the string unchanged. -/
theorem C9_counterexample_invalid_pointer_resolved :
    PermutoA.apply (Json.str (phText "/~2".data)) (Json.obj [])
      { enableStringInterpolation := true, onMissingKey := .Error } =
      .error (.missingKey "/~2".data) ∧
    (PermutoA.extract_placeholder_info ['$', '{'] ['}']
      (phText "/~2".data)).is_valid = false := by
  constructor
  · simp only [PermutoA.apply,
      show PermutoA.Options.validOk
        { enableStringInterpolation := true, onMissingKey := .Error } = true
        from rfl, if_true]
    rw [PermutoA.process_node_str _ _ _ _ _ (by decide)]
    rw [PermutoA.process_string_interp _ _ _ _ _ (by decide) (by decide) rfl]
    rw [show PermutoA.find_all_placeholders ['$', '{'] ['}'] (phText "/~2".data) =
      [{ path := "/~2".data, full_placeholder := phText "/~2".data,
         start_pos := 0, end_pos := 6, is_valid := true }] from by decide]
    rw [PermutoA.interp_parts_cons_valid _ _ _ _ _ _ _ _ (by decide)]
    decide
  · decide

namespace PermutoA

/-- The placeholder record produced by scanning the two-marker string
`start ++ end` (empty content, invalid). -/
def emptyPh (startM endM : Str) : PlaceholderInfo :=
  { path := [], full_placeholder := startM ++ endM, start_pos := 0,
    end_pos := startM.length + endM.length, is_valid := false }

theorem is_exact_empty (startM endM : Str) :
    is_exact_match_placeholder startM endM (startM ++ endM) = false := by
  have h : ¬ (startM.length + endM.length + 1 ≤ (startM ++ endM).length) := by
    simp [List.length_append]
  simp [is_exact_match_placeholder, h]

theorem extract_empty_invalid (startM endM : Str) :
    (extract_placeholder_info startM endM (startM ++ endM)).is_valid = false := by
  simp [extract_placeholder_info, is_exact_empty]

theorem findStr_start_empty (startM endM : Str) :
    findStr (startM ++ endM) startM 0 = some 0 := by
  unfold findStr findStrGo
  simp [List.isPrefixOf_iff_prefix, List.prefix_append]

theorem findStr_end_empty (startM endM : Str) :
    findStr (startM ++ endM) endM startM.length = some startM.length := by
  unfold findStr
  have h : ¬ ((startM ++ endM).length < startM.length) := by
    simp [List.length_append]
  rw [if_neg h]
  rw [List.drop_left]
  unfold findStrGo
  simp [List.isPrefixOf_iff_prefix]

theorem find_all_empty (startM endM : Str) (hs : startM ≠ []) :
    find_all_placeholders startM endM (startM ++ endM) =
      [emptyPh startM endM] := by
  have hl : 0 < (startM ++ endM).length := by
    simp [List.length_append]
    cases startM with
    | nil => exact absurd rfl hs
    | cons a as => simp
  unfold find_all_placeholders
  rw [find_all_go]
  rw [if_pos hl]
  rw [findStr_start_empty]
  simp only [Nat.zero_add]
  rw [findStr_end_empty]
  simp only []
  rw [find_all_go]
  have h2 : ¬ (startM.length + endM.length < (startM ++ endM).length) := by
    simp [List.length_append]
  rw [if_neg h2]
  simp [emptyPh, substrLen, List.take_of_length_le, List.length_append,
    dot_to_pointer]

end PermutoA

/-- C9, amended.  A string whose extracted placeholder content is empty —
the start marker immediately followed by the end marker — is treated as a
literal by `apply` for every valid marker pair, every missing-key policy
and both interpolation settings: the string comes back unchanged and the
context is never consulted.  (For other contents failing path validation
this holds only in exact-match position or with interpolation disabled:
the counterexample shows the interpolation scanner resolving them.) -/
theorem C9_empty_placeholder_literal (o : PermutoA.Options) (ctx : Json)
    (hs : o.variableStartMarker ≠ []) (he : o.variableEndMarker ≠ [])
    (hne : o.variableStartMarker ≠ o.variableEndMarker)
    (hd : 0 < o.maxRecursionDepth) :
    PermutoA.apply
      (Json.str (o.variableStartMarker ++ o.variableEndMarker)) ctx o =
      .ok (Json.str (o.variableStartMarker ++ o.variableEndMarker)) := by
  have hok : o.validOk = true := by
    simp [PermutoA.Options.validOk, hs, he, hne]
  have hnd : ¬ o.maxRecursionDepth ≤ 0 := by omega
  simp only [PermutoA.apply, hok, if_true]
  rw [PermutoA.process_node_str _ _ _ _ _ hnd]
  cases hi : o.enableStringInterpolation with
  | false =>
    rw [PermutoA.process_string_literal _ _ _ _ _ hnd
      (PermutoA.extract_empty_invalid _ _) hi]
  | true =>
    rw [PermutoA.process_string_interp _ _ _ _ _ hnd
      (PermutoA.extract_empty_invalid _ _) hi]
    rw [PermutoA.find_all_empty _ _ hs]
    simp only [List.cons_ne_self, if_false]
    rw [PermutoA.interp_parts_cons_invalid _ _ _ _ _ _ _ _ rfl]
    rw [PermutoA.interp_parts_nil]
    have hcur : ¬ ((PermutoA.emptyPh o.variableStartMarker
        o.variableEndMarker).end_pos <
        (o.variableStartMarker ++ o.variableEndMarker).length) := by
      simp [PermutoA.emptyPh, List.length_append]
    rw [if_neg hcur]
    simp [PermutoA.emptyPh, substrLen]

/-- C9, witness for the amended theorem, at the default markers with
interpolation enabled and the Error policy. -/
theorem C9_empty_placeholder_literal_witness :
    PermutoA.apply (Json.str (['$', '{'] ++ ['}'])) (Json.obj [])
      { enableStringInterpolation := true, onMissingKey := .Error } =
      .ok (Json.str (['$', '{'] ++ ['}'])) :=
  C9_empty_placeholder_literal
    { enableStringInterpolation := true, onMissingKey := .Error }
    (Json.obj []) (by decide) (by decide) (by decide) (by decide)

namespace PermutoA

/-- The active-path set after `i` hops of a placeholder chain: the paths of
the pending resolutions, innermost first. -/
def activeChain (p : Nat → Str) (i : Nat) : List Str :=
  (List.range i).reverse.map p

theorem activeChain_zero (p : Nat → Str) : activeChain p 0 = [] := rfl

theorem activeChain_succ (p : Nat → Str) (i : Nat) :
    activeChain p (i + 1) = p i :: activeChain p i := by
  simp [activeChain, List.range_succ]

theorem mem_activeChain (p : Nat → Str) (i : Nat) (q : Str) :
    q ∈ activeChain p i ↔ ∃ j, j < i ∧ p j = q := by
  simp [activeChain, List.mem_map, List.mem_range]

/-- The outcome of processing hop `i` of an `N+1`-hop chain under depth
limit `k`: the first depth check to fire is at depth `k`. -/
def chainResult (k N i : Nat) (fin : Str) : Except Err Json :=
  if k ≤ i then .error (.recursionDepth i k)
  else if N + 1 < k then .ok (.str fin) else .error (.recursionDepth k k)

/-- Evaluation of one suffix of a placeholder chain by `process_string`:
downward induction from the inert final string. -/
theorem chain_eval (k N : Nat) (p : Nat → Str) (s : Nat → Str) (ctx : Json)
    (fin : Str)
    (hinj : ∀ i j, i ≤ N → j ≤ N → p i = p j → i = j)
    (hne : ∀ i, i ≤ N → p i ≠ [])
    (hex : ∀ i, i ≤ N →
      extract_placeholder_info ['$', '{'] ['}'] (s i) =
        { path := p i, full_placeholder := s i, start_pos := 0,
          end_pos := (s i).length, is_valid := true })
    (hres : ∀ i, i < N →
      resolve_path ctx (p i) { maxRecursionDepth := k } =
        .ok (some (Json.str (s (i + 1)))))
    (hresN : resolve_path ctx (p N) { maxRecursionDepth := k } =
      .ok (some (Json.str fin)))
    (hfin : (extract_placeholder_info ['$', '{'] ['}'] fin).is_valid = false) :
    ∀ j i, i ≤ N + 1 → N + 1 - i = j →
      process_string { maxRecursionDepth := k } ctx
        (if i = N + 1 then fin else s i) (activeChain p i) i =
        chainResult k N i fin := by
  intro j
  induction j with
  | zero =>
    intro i hile hj
    have hi : i = N + 1 := by omega
    subst hi
    simp only [if_pos rfl]
    by_cases hk : k ≤ N + 1
    · rw [process_string_depth _ _ _ _ _ hk]
      simp [chainResult, hk]
    · rw [process_string_literal _ _ _ _ _ hk hfin rfl]
      simp only [chainResult, if_neg hk]
      have : N + 1 < k := by omega
      simp [this]
  | succ j ih =>
    intro i hile hj
    have hiN : i ≤ N := by omega
    rw [if_neg (by omega)]
    by_cases hk : k ≤ i
    · rw [process_string_depth _ _ _ _ _ hk]
      simp [chainResult, hk]
    · rw [process_string_exact _ _ _ _ _ hk _ (hex i hiN) rfl]
      have hguard : p i ∉ activeChain p i := by
        rw [mem_activeChain]
        rintro ⟨j2, hj2, hq⟩
        have := hinj j2 i (by omega) hiN hq
        omega
      have hrme : resolve_path ctx (p i) { maxRecursionDepth := k } =
          .ok (some (Json.str (if i = N then fin else s (i + 1)))) := by
        by_cases hiN2 : i = N
        · subst hiN2
          simpa using hresN
        · have : i < N := by omega
          simp [hiN2, hres i this]
      rw [exact_step_found_str _ _ _ _ _ _ (hne i hiN) hguard hrme]
      have hact : p i :: activeChain p i = activeChain p (i + 1) :=
        (activeChain_succ p i).symm
      rw [hact]
      have hih := ih (i + 1) (by omega) (by omega)
      have hsel : (if i + 1 = N + 1 then fin else s (i + 1)) =
          (if i = N then fin else s (i + 1)) := by
        by_cases hiN2 : i = N <;> simp [hiN2]
      rw [hsel] at hih
      rw [hih]
      simp only [chainResult, if_neg hk]
      by_cases hk1 : k ≤ i + 1
      · have hkk : k = i + 1 := by omega
        subst hkk
        have hN2 : ¬ (N + 1 < i + 1) := by omega
        simp [hk1, hN2]
      · simp only [if_neg hk1]
        by_cases hNk : N + 1 < k
        · simp [hNk, exactWrap_off]
        · simp [hNk]

end PermutoA

/-- C4, counterexample.  A one-hop chain at limit 1 — hop count equal to
the limit — raises RecursionLimit, where the claim's "succeeds iff hop
count ≤ k" requires success. -/
theorem C4_counterexample_hop_equal_limit :
    PermutoA.apply (Json.str (phText "/a".data))
      (Json.obj [("a".data, Json.str "end".data)])
      { maxRecursionDepth := 1 } = .error (.recursionDepth 1 1) := by
  simp only [PermutoA.apply,
    show PermutoA.Options.validOk { maxRecursionDepth := 1 } = true from rfl,
    if_true]
  rw [PermutoA.process_node_str _ _ _ _ _ (by decide)]
  rw [PermutoA.process_string_exact _ _ _ _ _ (by decide)
    { path := "/a".data, full_placeholder := phText "/a".data,
      start_pos := 0, end_pos := 5, is_valid := true } (by decide) rfl]
  rw [PermutoA.exact_step_found_str _ _ _ _ _ "end".data (by decide)
    (by decide) (by decide)]
  rw [PermutoA.process_string_depth _ _ _ _ _ (by decide)]

/-- C4, amended.  For every placeholder chain of `N + 1` hops — pairwise
distinct non-empty paths `p 0 .. p N`, each hop resolving to the next
placeholder string and the last to an inert string — `apply` under
`max_recursion_depth = k` succeeds if and only if the hop count is
strictly below `k`, and otherwise raises RecursionLimit carrying depth `k`
and limit `k`; so the 6-hop chain succeeds at limit 7 and fails at limit
6. -/
theorem C4_recursion_bound (k N : Nat) (p : Nat → Str) (s : Nat → Str)
    (ctx : Json) (fin : Str)
    (hinj : ∀ i j, i ≤ N → j ≤ N → p i = p j → i = j)
    (hne : ∀ i, i ≤ N → p i ≠ [])
    (hex : ∀ i, i ≤ N →
      PermutoA.extract_placeholder_info ['$', '{'] ['}'] (s i) =
        { path := p i, full_placeholder := s i, start_pos := 0,
          end_pos := (s i).length, is_valid := true })
    (hres : ∀ i, i < N →
      PermutoA.resolve_path ctx (p i) { maxRecursionDepth := k } =
        .ok (some (Json.str (s (i + 1)))))
    (hresN : PermutoA.resolve_path ctx (p N) { maxRecursionDepth := k } =
      .ok (some (Json.str fin)))
    (hfin : (PermutoA.extract_placeholder_info ['$', '{'] ['}'] fin).is_valid
      = false) :
    PermutoA.apply (Json.str (s 0)) ctx { maxRecursionDepth := k } =
      if N + 1 < k then .ok (Json.str fin)
      else .error (.recursionDepth k k) := by
  simp only [PermutoA.apply,
    show ∀ k2, PermutoA.Options.validOk { maxRecursionDepth := k2 } = true
      from fun k2 => rfl, if_true]
  by_cases hk0 : k = 0
  · subst hk0
    rw [PermutoA.process_node_depth _ _ _ _ _ (by show (0 : Nat) ≤ 0; omega)]
    simp
  · rw [PermutoA.process_node_str _ _ _ _ _ (by show ¬ (k ≤ 0); omega)]
    have := PermutoA.chain_eval k N p s ctx fin hinj hne hex hres hresN hfin
      (N + 1) 0 (by omega) (by omega)
    rw [if_neg (by omega), PermutoA.activeChain_zero] at this
    rw [this]
    simp only [PermutoA.chainResult]
    rw [if_neg (by omega)]

/-- The six chained context paths of the boundary example. -/
def chainP6 : Nat → Str := fun i =>
  List.getD ["/a".data, "/b".data, "/c".data, "/d".data, "/e".data, "/f".data]
    i "/zz".data

/-- The placeholder strings of the boundary example. -/
def chainS6 : Nat → Str := fun i => phText (chainP6 i)

/-- The six-hop chain context: `/a` .. `/e` each resolve to the next
placeholder and `/f` to the inert string `end`. -/
def chainCtx6 : Json := Json.obj
  [("a".data, Json.str (phText "/b".data)),
   ("b".data, Json.str (phText "/c".data)),
   ("c".data, Json.str (phText "/d".data)),
   ("d".data, Json.str (phText "/e".data)),
   ("e".data, Json.str (phText "/f".data)),
   ("f".data, Json.str "end".data)]

/-- C4, witness: the 6-hop chain succeeds at limit 7 and fails at limit 6
with RecursionLimit carrying depth 6 and limit 6. -/
theorem C4_recursion_bound_witness :
    PermutoA.apply (Json.str (chainS6 0)) chainCtx6
      { maxRecursionDepth := 7 } = .ok (Json.str "end".data) ∧
    PermutoA.apply (Json.str (chainS6 0)) chainCtx6
      { maxRecursionDepth := 6 } = .error (.recursionDepth 6 6) := by
  have hinj : ∀ i j, i ≤ 5 → j ≤ 5 → chainP6 i = chainP6 j → i = j := by
    intro i j hi hj
    interval_cases i <;> interval_cases j <;> decide
  have hne : ∀ i, i ≤ 5 → chainP6 i ≠ [] := by
    intro i hi
    interval_cases i <;> decide
  have hex : ∀ i, i ≤ 5 →
      PermutoA.extract_placeholder_info ['$', '{'] ['}'] (chainS6 i) =
        { path := chainP6 i, full_placeholder := chainS6 i, start_pos := 0,
          end_pos := (chainS6 i).length, is_valid := true } := by
    intro i hi
    interval_cases i <;> decide
  constructor
  · have hres : ∀ i, i < 5 →
        PermutoA.resolve_path chainCtx6 (chainP6 i)
          { maxRecursionDepth := 7 } =
          .ok (some (Json.str (chainS6 (i + 1)))) := by
      intro i hi
      interval_cases i <;> decide
    have h := C4_recursion_bound 7 5 chainP6 chainS6 chainCtx6 "end".data
      hinj hne hex hres (by decide) (by decide)
    simpa using h
  · have hres : ∀ i, i < 5 →
        PermutoA.resolve_path chainCtx6 (chainP6 i)
          { maxRecursionDepth := 6 } =
          .ok (some (Json.str (chainS6 (i + 1)))) := by
      intro i hi
      interval_cases i <;> decide
    have h := C4_recursion_bound 6 5 chainP6 chainS6 chainCtx6 "end".data
      hinj hne hex hres (by decide) (by decide)
    simpa using h

/-- C2, counterexample.  The one-entry template mapping "x" to the
placeholder of `/a`, over the context mapping "a" to the placeholder of
`/b` and "b" to `5`, provides the referenced path `/a` — yet the round trip
returns the object mapping "a" to `5`: the forward pass chases the chained
placeholder down to `5`, so the reconstructed value at `/a` is `5` while
the context holds the placeholder string of `/b` there.  The reconstruction
is not the restriction of the context to the referenced paths, refuting
the unrestricted claim. -/
theorem C2_counterexample_chained_reference :
    PermutoA.apply (Json.obj [("x".data, Json.str (phText "/a".data))])
      (Json.obj [("a".data, Json.str (phText "/b".data)),
                 ("b".data, Json.num 5)]) {} =
      .ok (Json.obj [("x".data, Json.num 5)]) ∧
    PermutoA.create_reverse_template
      (Json.obj [("x".data, Json.str (phText "/a".data))]) {} =
      .ok (Json.obj [("a".data, Json.str "/x".data)]) ∧
    PermutoA.apply_reverse (Json.obj [("a".data, Json.str "/x".data)])
      (Json.obj [("x".data, Json.num 5)]) =
      .ok (Json.obj [("a".data, Json.num 5)]) ∧
    Json.objFind [("a".data, Json.str (phText "/b".data)),
                  ("b".data, Json.num 5)] "a".data =
      some (Json.str (phText "/b".data)) ∧
    Json.num 5 ≠ Json.str (phText "/b".data) := by
  have hps2 : PermutoA.process_string {}
      (Json.obj [("a".data, Json.str (phText "/b".data)),
                 ("b".data, Json.num 5)])
      (phText "/b".data) ["/a".data] 2 = .ok (Json.num 5) := by
    rw [PermutoA.process_string_exact _ _ _ _ _ (by decide)
      { path := "/b".data, full_placeholder := phText "/b".data,
        start_pos := 0, end_pos := 5, is_valid := true } (by decide) rfl]
    decide
  have hps1 : PermutoA.process_string {}
      (Json.obj [("a".data, Json.str (phText "/b".data)),
                 ("b".data, Json.num 5)])
      (phText "/a".data) [] 1 = .ok (Json.num 5) := by
    rw [PermutoA.process_string_exact _ _ _ _ _ (by decide)
      { path := "/a".data, full_placeholder := phText "/a".data,
        start_pos := 0, end_pos := 5, is_valid := true } (by decide) rfl]
    rw [PermutoA.exact_step_found_str {} _ _ [] 1 (phText "/b".data)
      (by decide) (by decide) (by decide)]
    rw [hps2]
    decide
  refine ⟨?_, by decide, by decide, by decide, by decide⟩
  simp only [PermutoA.apply, PermutoA.process_node, PermutoA.process_entries,
    hps1]
  decide

/-- C2, amended.  The restricted round-trip law of generation A: with
interpolation disabled, valid markers, every exact-match placeholder of the
template carrying a non-empty pointer path that resolves in the context to
an inert value (no chained placeholder), unescape-stable distinct object
keys, depth headroom, and reverse-template insertions that all succeed (no
context-path conflicts, producing `RT`), the forward pass yields the
expected substitution `rtFwd`, the reverse build yields `RT`, and
`apply_reverse` of `RT` on the forward result reconstructs exactly the
context restricted to the referenced paths (`rtRestrict`). -/
theorem C2_round_trip (o : PermutoA.Options) (ctx t RT : Json)
    (ho : o.validOk = true)
    (hi : o.enableStringInterpolation = false)
    (hs : PermutoA.rtStringsOK o ctx t = true)
    (hk : PermutoA.rtKeysOK t = true)
    (hd : PermutoA.depthNeed t ≤ o.maxRecursionDepth)
    (hb : PermutoA.rtInsertFold (.obj []) (PermutoA.rtRefs o t []) = .ok RT) :
    PermutoA.apply t ctx o = .ok (PermutoA.rtFwd o ctx t) ∧
    PermutoA.create_reverse_template t o = .ok RT ∧
    PermutoA.apply_reverse RT (PermutoA.rtFwd o ctx t) =
      .ok (PermutoA.rtRestrict o ctx t) := by
  have hfwd : PermutoA.apply t ctx o = .ok (PermutoA.rtFwd o ctx t) := by
    rw [PermutoA.apply, if_pos ho]
    exact PermutoA.fwd_aux o ctx hi (sizeOf t) t (le_refl _) hs 0 (by omega)
  have hrev : PermutoA.create_reverse_template t o = .ok RT := by
    rw [PermutoA.create_reverse_template, if_pos ho,
      if_neg (by rw [hi]; simp)]
    rw [PermutoA.build_eq_fold o (sizeOf t) t (le_refl _) [] (.obj [])]
    exact hb
  refine ⟨hfwd, hrev, ?_⟩
  have hcorr : ∀ pr ∈ PermutoA.rtRefs o t [],
      PermutoA.resolveStrict (PermutoA.rtFwd o ctx t) pr.2 =
        some (PermutoA.rtVal ctx pr.1) := by
    intro pr hm
    exact PermutoA.look_aux o ctx t (sizeOf t) t (le_refl _) hs hk [] []
      rfl rfl pr hm
  obtain ⟨hwfRT, hlkRT, hmap⟩ := PermutoA.fold_commute
    (PermutoA.rtFwd o ctx t) ctx (PermutoA.rtRefs o t []) (.obj []) RT hb
    hcorr rfl rfl
  rcases PermutoA.rtInsertFold_obj (PermutoA.rtRefs o t []) [] RT hb with
    ⟨es2, rfl⟩
  rw [PermutoA.apply_reverse]
  rw [PermutoA.recon_ok (PermutoA.rtFwd o ctx t) (sizeOf (Json.obj es2))
    (Json.obj es2) (le_refl _) hwfRT hlkRT]
  rw [hmap]
  rfl

/-- C2, witness for the amended round-trip law: the two-reference template
(keys "a" and "b" holding the placeholders of `/x` and `/y/z`) over the
context where `/x` is `7` and `/y/z` is `"hi"` round-trips to exactly the
referenced part of the context. -/
theorem C2_round_trip_witness :
    PermutoA.apply
      (Json.obj [("a".data, Json.str (phText "/x".data)),
                 ("b".data, Json.str (phText "/y/z".data))])
      (Json.obj [("x".data, Json.num 7),
                 ("y".data, Json.obj [("z".data, Json.str "hi".data)])]) {} =
      .ok (Json.obj [("a".data, Json.num 7),
                     ("b".data, Json.str "hi".data)]) ∧
    PermutoA.create_reverse_template
      (Json.obj [("a".data, Json.str (phText "/x".data)),
                 ("b".data, Json.str (phText "/y/z".data))]) {} =
      .ok (Json.obj [("x".data, Json.str "/a".data),
                     ("y".data, Json.obj [("z".data, Json.str "/b".data)])]) ∧
    PermutoA.apply_reverse
      (Json.obj [("x".data, Json.str "/a".data),
                 ("y".data, Json.obj [("z".data, Json.str "/b".data)])])
      (Json.obj [("a".data, Json.num 7),
                 ("b".data, Json.str "hi".data)]) =
      .ok (Json.obj [("x".data, Json.num 7),
                     ("y".data, Json.obj [("z".data, Json.str "hi".data)])]) := by
  have h := C2_round_trip {}
    (Json.obj [("x".data, Json.num 7),
               ("y".data, Json.obj [("z".data, Json.str "hi".data)])])
    (Json.obj [("a".data, Json.str (phText "/x".data)),
               ("b".data, Json.str (phText "/y/z".data))])
    (Json.obj [("x".data, Json.str "/a".data),
               ("y".data, Json.obj [("z".data, Json.str "/b".data)])])
    (by decide) (by decide) (by decide) (by decide) (by decide) (by decide)
  obtain ⟨h1, h2, h3⟩ := h
  have hf : PermutoA.rtFwd {}
      (Json.obj [("x".data, Json.num 7),
                 ("y".data, Json.obj [("z".data, Json.str "hi".data)])])
      (Json.obj [("a".data, Json.str (phText "/x".data)),
                 ("b".data, Json.str (phText "/y/z".data))]) =
      Json.obj [("a".data, Json.num 7), ("b".data, Json.str "hi".data)] := by
    decide
  rw [hf] at h1 h3
  refine ⟨h1, h2, h3.trans ?_⟩
  decide
